import Mathlib

/-!
# Stable radix sort of plain keys (thrust, CUDA backend)

A shallow embedding of `thrust/sorting/detail/device/cuda/stable_radix_sort_key.inl`.

* A device array of `num_elements` keys is a `List`; `num_elements` is its length.
  `num_elements` is an `unsigned int`, so the statements about the 64-bit sorter carry the
  hypothesis `keys.length ≤ 2 ^ 32`.
* An `unsigned int` is a `Nat` below `2 ^ 32`; every store into an `unsigned int` buffer is an
  explicit `% 2 ^ 32`.
* `thrust::gather` reads `input[map[i]]`; a read outside the input is an error, so `gather`
  returns an `Option`.
* The key-value sorting primitive `stable_radix_sort_key_value_dev` is an argument of the
  64-bit sorter; the statements assume its contract (`StableKeyValueSort`, or only
  `PermutesValues`), and `stable_radix_sort_key_value_dev` below is one primitive meeting it.
* Signed keys are `Int` values in the range of their type; float keys are their IEEE bit
  patterns.
* `radix_sort`, the functors `encode_uint`, `decode_uint`, `lower_32_bits`, `upper_32_bits`
  and `thrust::minimum` are defined outside the two source files; their definitions here
  follow the specification and say so. The signed 32-bit sorter takes `radix_sort` and its
  two functors as arguments, so that a statement can tell its two calls apart.
-/

namespace Thrust

/-! ## Machine words -/

/-- The number of values of an `unsigned int` (32 bits). -/
def UINT_RANGE : Nat := 2 ^ 32

/-- The value kept by a store into an `unsigned int` buffer. -/
def to_uint (x : Nat) : Nat := x % UINT_RANGE

/-- The element type a 32-bit buffer is read as by the sorting primitive: the template
arguments `LowerBits` and `UpperBits` of `stable_radix_sort_key_large_dev`, which the source
instantiates with `unsigned int` and `int`. -/
inductive BitsType where
  | unsigned_int
  | int
  deriving DecidableEq, Repr

/-- The value of the 32-bit pattern `u` read at type `ty` (two's complement for `int`). -/
def BitsType.value : BitsType → Nat → Int
  | .unsigned_int, u => (u : Int)
  | .int, u => if u < 2 ^ 31 then (u : Int) else (u : Int) - 2 ^ 32

/-! ## The parallel primitives -/

/-- The call `thrust::transform(first, last, result, op)`: `result[i] = op(first[i])`. -/
def transform {α β : Type} (input : List α) (op : α → β) : List β :=
  input.map op

/-- The call `thrust::sequence(first, last)` on an `unsigned int` buffer of `n` elements:
`first[i] = i`, stored as `unsigned int`. -/
def sequence (n : Nat) : List Nat :=
  (List.range n).map to_uint

/-- The call `thrust::gather(first, last, map, input)`: `first[i] = input[map[i]]` for every
position of the output range, which is as long as `map`. There is no result when an index
lies outside `input`. -/
def gather {α : Type} (map : List Nat) (input : List α) : Option (List α) :=
  match map with
  | [] => some []
  | i :: rest =>
    match input[i]?, gather rest input with
    | some x, some out => some (x :: out)
    | _, _ => none

/-- The call `thrust::reduce(first, last, init, binary_op)`. -/
def reduce {α : Type} (input : List α) (init : α) (binary_op : α → α → α) : α :=
  input.foldl binary_op init

/-! ## The key-value sorting primitive -/

/-- A key-value sorting primitive on two 32-bit buffers of equal length: it returns the
new contents of the key buffer and of the value buffer. -/
abbrev KeyValueSort := List Nat → List Nat → List Nat × List Nat

/-- Modelled from the spec: `stable_radix_sort_key_value_dev` is not in `src/`; the spec
describes it as a correct, stable sort of `(key, value)` pairs by key. Keys are compared
at the element type `ty` the key buffer is cast to. -/
def stable_radix_sort_key_value_dev (ty : BitsType) : KeyValueSort :=
  fun keys values =>
    ((keys.zip values).insertionSort (fun a b => ty.value a.1 ≤ ty.value b.1)).unzip

/-! ## 64-bit keys: the two-pass sorter -/

/-- The buffers of `stable_radix_sort_key_large_dev` that the statements refer to. -/
structure LargeDevBuffers (KeyType : Type) where
  /-- The buffer `permutation` after the first key-value sort (line 169). -/
  lower_permutation : List Nat
  /-- The buffer `permuted_keys` after the first gather (line 176). -/
  permuted_keys : List KeyType
  /-- The buffer `permutation` after the second key-value sort (line 185), which is its
  content when the function frees it. -/
  permutation : List Nat
  /-- The array `keys` after the final gather (line 191). -/
  keys : List KeyType
  deriving DecidableEq

/-- The function `stable_radix_sort_key_large_dev<KeyType, LowerBits, UpperBits, ...>`
(lines 152-196). `sort_key_value ty` is the overload of `stable_radix_sort_key_value_dev`
chosen by the cast of `partial_keys` to `ty *`. -/
def stable_radix_sort_key_large_dev {KeyType : Type} (sort_key_value : BitsType → KeyValueSort)
    (LowerBits UpperBits : BitsType)
    (extract_lower_bits extract_upper_bits : KeyType → Nat)
    (keys : List KeyType) : Option (LargeDevBuffers KeyType) :=
  let num_elements := keys.length
  -- first sort on the lower 32-bits of the keys
  let partial_keys := transform keys (fun k => to_uint (extract_lower_bits k))
  let permutation := sequence num_elements
  let lower_permutation := (sort_key_value LowerBits partial_keys permutation).2
  -- permute full keys so lower bits are sorted
  match gather lower_permutation keys with
  | none => none
  | some permuted_keys =>
    -- now sort on the upper 32 bits of the keys
    let partial_keys := transform permuted_keys (fun k => to_uint (extract_upper_bits k))
    let permutation := sequence num_elements
    let permutation := (sort_key_value UpperBits partial_keys permutation).2
    -- store sorted keys
    match gather permutation permuted_keys with
    | none => none
    | some sorted_keys =>
      some { lower_permutation := lower_permutation
             permuted_keys := permuted_keys
             permutation := permutation
             keys := sorted_keys }

/-- Modelled from the spec: the functors `lower_32_bits<KeyType>` and `upper_32_bits<KeyType>`
live in `stable_radix_sort_bits.h`, which is not in `src/`. For an unsigned 64-bit key the
lower half is `k mod 2^32`. -/
def lower_32_bits_uint64 (k : Nat) : Nat := k % 2 ^ 32

/-- Modelled from the spec: for an unsigned 64-bit key the upper half is `k div 2^32`. -/
def upper_32_bits_uint64 (k : Nat) : Nat := k / 2 ^ 32

/-- The overload of `stable_radix_sort_key_dev` for width 8, exact, unsigned (lines 199-207):
the array `keys` on return. -/
def stable_radix_sort_key_dev_uint64 (sort_key_value : BitsType → KeyValueSort)
    (keys : List Nat) : Option (List Nat) :=
  (stable_radix_sort_key_large_dev sort_key_value .unsigned_int .unsigned_int
    lower_32_bits_uint64 upper_32_bits_uint64 keys).map (·.keys)

/-- Modelled from the spec: for a signed 64-bit key (two's complement) the lower half is its
low 32 bits, which the first pass sorts as `unsigned int`. -/
def lower_32_bits_int64 (k : Int) : Nat := (k % 2 ^ 32).toNat

/-- Modelled from the spec: for a signed 64-bit key the upper half is the 32-bit pattern of
`k >> 32`, which the second pass sorts as `int`. -/
def upper_32_bits_int64 (k : Int) : Nat := ((k / 2 ^ 32) % 2 ^ 32).toNat

/-- The overload of `stable_radix_sort_key_dev` for width 8, exact, signed (lines 209-217):
the array `keys` on return. `LowerBits` is `unsigned int` and `UpperBits` is `int`. -/
def stable_radix_sort_key_dev_int64 (sort_key_value : BitsType → KeyValueSort)
    (keys : List Int) : Option (List Int) :=
  (stable_radix_sort_key_large_dev sort_key_value .unsigned_int .int
    lower_32_bits_int64 upper_32_bits_int64 keys).map (·.keys)

/-- Modelled from the spec: for a 64-bit float (as a bit pattern) both extractors first
encode the key, flipping the sign bit of a pattern with sign bit 0 and inverting all bits of
a pattern with sign bit 1. -/
def encode_float64 (x : Nat) : Nat :=
  if x < 0x8000000000000000 then x ^^^ 0x8000000000000000 else x ^^^ 0xFFFFFFFFFFFFFFFF

/-- Modelled from the spec: `lower_32_bits<double>`, the lower half of the encoded key. -/
def lower_32_bits_float64 (k : Nat) : Nat := encode_float64 k % 2 ^ 32

/-- Modelled from the spec: `upper_32_bits<double>`, the upper half of the encoded key. -/
def upper_32_bits_float64 (k : Nat) : Nat := encode_float64 k / 2 ^ 32

/-- The overload of `stable_radix_sort_key_dev` for width 8, inexact, signed (lines 219-228):
the array `keys` on return. The keys are reinterpreted as `unsigned long long`, here their
IEEE bit patterns. -/
def stable_radix_sort_key_dev_float64 (sort_key_value : BitsType → KeyValueSort)
    (keys : List Nat) : Option (List Nat) :=
  (stable_radix_sort_key_large_dev sort_key_value .unsigned_int .unsigned_int
    lower_32_bits_float64 upper_32_bits_float64 keys).map (·.keys)

/-! ## 32-bit keys -/

/-- The view `(unsigned int *) keys` of one `int` key: its two's complement bit pattern. -/
def reinterpret_as_uint (k : Int) : Nat := (k % 2 ^ 32).toNat

/-- Modelled from the spec: the functors `encode_uint<KeyType>` and `decode_uint<KeyType>`
live in `stable_radix_sort_bits.h`, which is not in `src/`. For an unsigned integer the
encoding is the identity. -/
def encode_uint_unsigned (x : Nat) : Nat := x

/-- Modelled from the spec: for a signed integer, `encoded = value XOR sign_bit_mask`. -/
def encode_uint_int (x : Nat) : Nat := x ^^^ 0x80000000

/-- Modelled from the spec: the decoder of a signed integer undoes the sign-bit flip. -/
def decode_uint_int (x : Nat) : Nat := x ^^^ 0x80000000

/-- Modelled from the spec: the decoder of an unsigned integer is the identity as well. -/
def decode_uint_unsigned (x : Nat) : Nat := x

/-- Modelled from the spec: `encode_uint<KeyType>` for a signed integer type of `bits` bits
(8, 16 or 32), on the two's complement pattern of the key: `encoded = value XOR
sign_bit_mask`, the mask being bit `bits - 1`. -/
def encode_uint_signed (bits : Nat) (x : Nat) : Nat := x ^^^ 2 ^ (bits - 1)

/-- Modelled from the spec: the decoder of a signed integer type of `bits` bits flips the
sign bit back. -/
def decode_uint_signed (bits : Nat) (x : Nat) : Nat := x ^^^ 2 ^ (bits - 1)

/-- Modelled from the spec: for an IEEE float (as a bit pattern), flip the sign bit of a
positive value and invert all bits of a negative value. -/
def encode_uint_float (x : Nat) : Nat :=
  if x < 0x80000000 then x ^^^ 0x80000000 else x ^^^ 0xFFFFFFFF

/-- Modelled from the spec: the decoder of a float undoes `encode_uint_float`. -/
def decode_uint_float (x : Nat) : Nat :=
  if x < 0x80000000 then x ^^^ 0xFFFFFFFF else x ^^^ 0x80000000

/-- Modelled from the spec: `radix_sort(keys, num_elements, preprocess, postprocess, bits)`,
the unsigned 32-bit base sorter, is not in `src/`. Per the spec it encodes every key, sorts
the encoded `unsigned int` values in ascending order and decodes them. The optional last
argument is the number of significant bits of the encoded keys; `32` is all of them, so
both call forms sort on the whole encoded key. -/
def radix_sort (keys : List Nat) (preprocess postprocess : Nat → Nat)
    (_encoded_bits : Option Nat) : List Nat :=
  let encoded := transform keys (fun k => to_uint (preprocess k))
  let sorted := encoded.insertionSort (fun a b => a ≤ b)
  transform sorted (fun k => to_uint (postprocess k))

/-- The overload of `stable_radix_sort_key_dev` for width 4, exact, unsigned
(lines 100-107). -/
def stable_radix_sort_key_dev_uint32 (keys : List Nat) : List Nat :=
  radix_sort keys encode_uint_unsigned encode_uint_unsigned none

/-- Modelled from the spec: `thrust::minimum<KeyType>` is not in `src/`; it returns the
smaller of its arguments. -/
def minimum (lhs rhs : Int) : Int := if lhs < rhs then lhs else rhs

/-- The two branches of the signed 32-bit sorter. -/
inductive Int32Branch where
  /-- Line 123: negatives present, encode, sort all 32 bits, decode. -/
  | full_encode_decode
  /-- Line 126: all keys are positive, treat keys as unsigned ints. -/
  | unsigned_shortcut
  deriving DecidableEq, Repr

/-- The test `if(min_val < 0)` of line 121. -/
def int32_branch (min_val : Int) : Int32Branch :=
  if min_val < 0 then .full_encode_decode else .unsigned_shortcut

/-- A base sorter with the interface of `radix_sort`: the key buffer, the pre-processing and
the post-processing functor, and the bit count when the call gives one. -/
abbrev RadixSort := List Nat → (Nat → Nat) → (Nat → Nat) → Option Nat → List Nat

/-- The overload of `stable_radix_sort_key_dev` for width 4, exact, signed (lines 109-127),
with what it calls as arguments: the base sorter `radix_sort` and the functors
`encode_uint<KeyType>` and `decode_uint<KeyType>`. The keys are `int` values; the sorter
works on their bit patterns and the caller reads the result as `int` again. -/
def stable_radix_sort_key_dev_int32_with (radix_sort_call : RadixSort)
    (encode_uint decode_uint : Nat → Nat) (keys : List Int) : List Int :=
  -- find the smallest value in the array
  let min_val := reduce keys 0 minimum
  match int32_branch min_val with
  | .full_encode_decode =>
    -- negatives present, sort all 32 bits
    (radix_sort_call (keys.map reinterpret_as_uint) encode_uint decode_uint (some 32)).map
      BitsType.int.value
  | .unsigned_shortcut =>
    -- all keys are positive, treat keys as unsigned ints
    (radix_sort_call (keys.map reinterpret_as_uint) encode_uint encode_uint none).map
      BitsType.int.value

/-- The signed 32-bit sorter of lines 109-127 run with the modelled `radix_sort` and the
modelled functors of `int`. -/
def stable_radix_sort_key_dev_int32 (keys : List Int) : List Int :=
  stable_radix_sort_key_dev_int32_with radix_sort encode_uint_int decode_uint_int keys

/-- The overload of `stable_radix_sort_key_dev` for width 4, inexact, signed (lines 129-136).
A `float` key is its IEEE bit pattern. -/
def stable_radix_sort_key_dev_float32 (keys : List Nat) : List Nat :=
  radix_sort keys encode_uint_float decode_uint_float (some 32)

/-! ## 8-bit and 16-bit keys -/

/-- The function `stable_radix_sort_key_small_dev<KeyType>` (lines 51-73). The functors
`encode_uint<KeyType>` and `decode_uint<KeyType>` of the narrow key type are arguments. The
call of line 63 is on `unsigned int` keys, which the dispatch sends to the width 4, exact,
unsigned overload. -/
def stable_radix_sort_key_small_dev {KeyType : Type} (encode_uint : KeyType → Nat)
    (decode_uint : Nat → KeyType) (keys : List KeyType) : List KeyType :=
  -- encode the small types in 32-bit unsigned ints
  let full_keys := transform keys (fun k => to_uint (encode_uint k))
  -- sort the 32-bit unsigned ints
  let full_keys := stable_radix_sort_key_dev_uint32 full_keys
  -- decode the 32-bit unsigned ints
  transform full_keys decode_uint

/-! ## Dispatch -/

/-- The code paths the dispatch can end in. -/
inductive CodePath where
  /-- `stable_radix_sort_key_small_dev` (lines 75-93). -/
  | small_dev
  /-- Width 4, exact, unsigned (line 106). -/
  | uint32
  /-- Width 4, exact, signed (lines 116-126). -/
  | int32
  /-- Width 4, inexact, signed (line 135). -/
  | float32
  /-- Width 8, exact, unsigned (lines 205-206). -/
  | uint64
  /-- Width 8, exact, signed (lines 215-216). -/
  | int64
  /-- Width 8, inexact, signed (lines 226-227). -/
  | float64
  deriving DecidableEq, Repr

/-- Overload resolution for the tags `integral_constant<bool, is_exact>` and
`integral_constant<bool, is_signed>` at width 4 (lines 100-146): `none` when no overload
takes the tags. -/
def dispatch_width_4 (is_exact is_signed : Bool) : Option CodePath :=
  match is_exact, is_signed with
  | true, false => some .uint32
  | true, true => some .int32
  | false, true => some .float32
  | false, false => none

/-- Overload resolution for the two tags at width 8 (lines 199-238). -/
def dispatch_width_8 (is_exact is_signed : Bool) : Option CodePath :=
  match is_exact, is_signed with
  | true, false => some .uint64
  | true, true => some .int64
  | false, true => some .float64
  | false, false => none

/-- The entry `stable_radix_sort_key_dev(keys, num_elements)` (lines 240-247) seen as a
function of `sizeof(KeyType)` and of the two `numeric_limits` flags: the code path overload
resolution selects for the tag `integral_constant<int, sizeof(KeyType)>`, or `none` when no
overload takes the tag and the program does not compile. -/
def stable_radix_sort_key_dev_dispatch (sizeof_KeyType : Nat) (is_exact is_signed : Bool) :
    Option CodePath :=
  match sizeof_KeyType with
  | 1 => some .small_dev
  | 2 => some .small_dev
  | 4 => dispatch_width_4 is_exact is_signed
  | 8 => dispatch_width_8 is_exact is_signed
  | _ => none

/-! ## Specifications -/

/-- The value of a 32-bit float pattern as a sign-magnitude integer. On patterns that are
not NaN, comparing two floats is comparing these integers; `+0.0` and `-0.0` both have
value 0. -/
def float32_order_key (u : Nat) : Int :=
  if u < 2 ^ 31 then (u : Int) else -((u : Int) - 2 ^ 31)

/-- The value of a 64-bit float pattern as a sign-magnitude integer. -/
def float64_order_key (u : Nat) : Int :=
  if u < 2 ^ 63 then (u : Int) else -((u : Int) - 2 ^ 63)

/-- The reading of the index buffer as indices into the original array: the key at output
position `i` is the original key at index `permutation[i]`. -/
def PermutationIndexesOriginal {KeyType : Type} (keys : List KeyType)
    (b : LargeDevBuffers KeyType) : Prop :=
  ∀ (i p : Nat), b.permutation[i]? = some p → keys[p]? = b.keys[i]?

/-- Encode every key, sort the encoded values in ascending order, decode: the shape of every
path built on `radix_sort`. -/
def sort_through {α : Type} (encode : α → Nat) (decode : Nat → α) (keys : List α) : List α :=
  ((keys.map encode).insertionSort (fun a b => a ≤ b)).map decode

/-- The list `out` is the stable sort of `inp` by `key`: its keys ascend, and for every key
value the elements carrying that value are the same, in the same order, as in `inp`. -/
def IsStableSortBy {α β : Type} [LinearOrder β] (key : α → β) (inp out : List α) : Prop :=
  out.Pairwise (fun a b => key a ≤ key b) ∧
    ∀ x : β, out.filter (fun a => decide (key a = x)) = inp.filter (fun a => decide (key a = x))

/-- The contract of the key-value sorting primitive at key type `ty`: on two `unsigned int`
buffers of equal length it keeps both lengths and leaves the `(key, value)` pairs stably
sorted by key. -/
def StableKeyValueSort (ty : BitsType) (sort : KeyValueSort) : Prop :=
  ∀ keys values : List Nat, keys.length = values.length →
    (∀ k ∈ keys, k < UINT_RANGE) → (∀ v ∈ values, v < UINT_RANGE) →
    (sort keys values).1.length = keys.length ∧ (sort keys values).2.length = values.length ∧
    IsStableSortBy (fun p : Nat × Nat => ty.value p.1) (keys.zip values)
      ((sort keys values).1.zip (sort keys values).2)

/-- The key one pass of the two-pass sorter compares: the extracted bits as stored in the
`unsigned int` buffer `partial_keys`, read at the element type `ty` of that pass. -/
def pass_key {KeyType : Type} (ty : BitsType) (extract_bits : KeyType → Nat) (k : KeyType) :
    Int :=
  ty.value (to_uint (extract_bits k))

/-- The pair (upper bits, lower bits) of a key, ordered lexicographically. -/
def full_key {KeyType : Type} (LowerBits UpperBits : BitsType)
    (extract_lower_bits extract_upper_bits : KeyType → Nat) (k : KeyType) : Lex (Int × Int) :=
  toLex (pass_key UpperBits extract_upper_bits k, pass_key LowerBits extract_lower_bits k)

/-- The weakest contract the statements use: the primitive only reorders its value buffer. -/
def PermutesValues (sort : KeyValueSort) : Prop :=
  ∀ keys values : List Nat, keys.length = values.length → (sort keys values).2.Perm values

/-! ## Stable sorts -/

section StableSort

variable {α β : Type} [LinearOrder β]

theorem IsStableSortBy.mem_iff {key : α → β} {inp out : List α}
    (h : IsStableSortBy key inp out) (a : α) : a ∈ out ↔ a ∈ inp := by
  have h2 := h.2 (key a)
  constructor
  · intro ha
    have : a ∈ out.filter (fun b => decide (key b = key a)) := by
      simp [List.mem_filter, ha]
    rw [h2] at this
    exact (List.mem_filter.mp this).1
  · intro ha
    have : a ∈ inp.filter (fun b => decide (key b = key a)) := by
      simp [List.mem_filter, ha]
    rw [← h2] at this
    exact (List.mem_filter.mp this).1

theorem IsStableSortBy.perm [DecidableEq α] {key : α → β} {inp out : List α}
    (h : IsStableSortBy key inp out) : out.Perm inp := by
  rw [List.perm_iff_count]
  intro a
  have e1 : List.count a (out.filter (fun b => decide (key b = key a))) = List.count a out :=
    List.count_filter (by simp)
  have e2 : List.count a (inp.filter (fun b => decide (key b = key a))) = List.count a inp :=
    List.count_filter (by simp)
  rw [← e1, ← e2, h.2]

theorem IsStableSortBy.length_eq [DecidableEq α] {key : α → β} {inp out : List α}
    (h : IsStableSortBy key inp out) : out.length = inp.length :=
  h.perm.length_eq

/-- Two lists with ascending keys and the same elements per key value are equal. -/
theorem eq_of_pairwise_of_filter_eq {key : α → β} :
    ∀ (l₁ l₂ : List α), l₁.Pairwise (fun a b => key a ≤ key b) →
      l₂.Pairwise (fun a b => key a ≤ key b) →
      (∀ x : β, l₁.filter (fun a => decide (key a = x)) =
        l₂.filter (fun a => decide (key a = x))) → l₁ = l₂
  | [], l₂, _, _, h => by
    cases l₂ with
    | nil => rfl
    | cons b t =>
      have := h (key b)
      simp at this
  | a :: t₁, [], _, _, h => by
    have := h (key a)
    simp at this
  | a :: t₁, b :: t₂, h₁, h₂, h => by
    rw [List.pairwise_cons] at h₁ h₂
    have hab : key a = key b := by
      apply le_antisymm
      · have hb : b ∈ (a :: t₁).filter (fun c => decide (key c = key b)) := by
          rw [h (key b)]; simp
        rcases List.mem_cons.mp (List.mem_filter.mp hb).1 with e | e
        · rw [e]
        · exact h₁.1 b e
      · have ha : a ∈ (b :: t₂).filter (fun c => decide (key c = key a)) := by
          rw [← h (key a)]; simp
        rcases List.mem_cons.mp (List.mem_filter.mp ha).1 with e | e
        · rw [e]
        · exact h₂.1 a e
    have hx := h (key a)
    rw [List.filter_cons_of_pos (by simp), List.filter_cons_of_pos (by simp [hab])] at hx
    have hhead : a = b := (List.cons.inj hx).1
    subst hhead
    have htail : t₁ = t₂ := by
      apply eq_of_pairwise_of_filter_eq t₁ t₂ h₁.2 h₂.2
      intro x
      by_cases hxa : key a = x
      · subst hxa
        exact (List.cons.inj hx).2
      · have := h x
        rwa [List.filter_cons_of_neg (by simp [hxa]), List.filter_cons_of_neg (by simp [hxa])]
          at this
    rw [htail]

/-- A list has one stable sort by a given key. -/
theorem IsStableSortBy.unique {key : α → β} {inp out₁ out₂ : List α}
    (h₁ : IsStableSortBy key inp out₁) (h₂ : IsStableSortBy key inp out₂) : out₁ = out₂ :=
  eq_of_pairwise_of_filter_eq out₁ out₂ h₁.1 h₂.1 (fun x => by rw [h₁.2, h₂.2])

/-- Stable sorting commutes with a partial relabelling that keeps the key. -/
theorem IsStableSortBy.filterMap {γ : Type} {key : α → β} {inp out : List α}
    (h : IsStableSortBy key inp out) (key' : γ → β) (f : α → Option γ)
    (hf : ∀ a ∈ inp, ∀ c, f a = some c → key' c = key a) :
    IsStableSortBy key' (inp.filterMap f) (out.filterMap f) := by
  have hf' : ∀ a ∈ out, ∀ c, f a = some c → key' c = key a :=
    fun a ha => hf a ((h.mem_iff a).mp ha)
  have key_filter : ∀ (l : List α), (∀ a ∈ l, ∀ c, f a = some c → key' c = key a) →
      ∀ x : β, (l.filterMap f).filter (fun c => decide (key' c = x)) =
        (l.filter (fun a => decide (key a = x))).filterMap f := by
    intro l hl x
    induction l with
    | nil => rfl
    | cons a t ih =>
      have iht := ih (fun b hb => hl b (List.mem_cons_of_mem _ hb))
      cases hfa : f a with
      | none =>
        rw [List.filterMap_cons_none hfa, iht]
        by_cases hk : key a = x
        · rw [List.filter_cons_of_pos (by simpa using hk), List.filterMap_cons_none hfa]
        · rw [List.filter_cons_of_neg (by simpa using hk)]
      | some c =>
        have hc := hl a (List.mem_cons_self _ _) c hfa
        rw [List.filterMap_cons_some hfa]
        by_cases hk : key a = x
        · rw [List.filter_cons_of_pos (by simpa [hc] using hk),
            List.filter_cons_of_pos (by simpa using hk), List.filterMap_cons_some hfa, iht]
        · rw [List.filter_cons_of_neg (by simpa [hc] using hk),
            List.filter_cons_of_neg (by simpa using hk), iht]
  refine ⟨?_, fun x => ?_⟩
  · rw [List.pairwise_filterMap]
    have hmem : ∀ a ∈ out, ∀ b ∈ out, key a ≤ key b →
        ∀ c, f a = some c → ∀ d, f b = some d → key' c ≤ key' d := by
      intro a ha b hb hab c hc d hd
      rw [hf' a ha c hc, hf' b hb d hd]
      exact hab
    exact h.1.imp_of_mem (fun {a b} ha hb hab c hc d hd => hmem a ha b hb hab c hc d hd)
  · rw [key_filter out hf' x, key_filter inp hf x, h.2 x]

/-- A relation that holds inside every class of equal keys holds between any two elements
of equal key. -/
theorem pairwise_of_filter_pairwise (key : α → β) {S : α → α → Prop} :
    ∀ (l : List α), (∀ x : β, (l.filter (fun a => decide (key a = x))).Pairwise S) →
      l.Pairwise (fun a b => key a = key b → S a b)
  | [], _ => List.Pairwise.nil
  | a :: t, h => by
    rw [List.pairwise_cons]
    constructor
    · intro b hb hab
      have := h (key a)
      rw [List.filter_cons_of_pos (by simp), List.pairwise_cons] at this
      exact this.1 b (List.mem_filter.mpr ⟨hb, by simpa using hab.symm⟩)
    · apply pairwise_of_filter_pairwise key t
      intro x
      have := h x
      by_cases hx : key a = x
      · rw [List.filter_cons_of_pos (by simpa using hx), List.pairwise_cons] at this
        exact this.2
      · rwa [List.filter_cons_of_neg (by simpa using hx)] at this

/-- Two stable sorts in a row, by a minor key and then by a major key, make one stable sort
by the lexicographic pair (major, minor). -/
theorem IsStableSortBy.comp {β' : Type} [LinearOrder β'] {minor : α → β} {major : α → β'}
    {inp mid out : List α}
    (h₁ : IsStableSortBy minor inp mid) (h₂ : IsStableSortBy major mid out) :
    IsStableSortBy (fun a => toLex (major a, minor a)) inp out := by
  have hfilter : ∀ (x : β') (y : β),
      out.filter (fun a => decide (toLex (major a, minor a) = toLex (x, y))) =
        inp.filter (fun a => decide (toLex (major a, minor a) = toLex (x, y))) := by
    intro x y
    have split : ∀ l : List α,
        l.filter (fun a => decide (toLex (major a, minor a) = toLex (x, y))) =
          (l.filter (fun a => decide (major a = x))).filter (fun a => decide (minor a = y)) := by
      intro l
      rw [List.filter_filter]
      apply List.filter_congr
      intro a _
      simp [Prod.ext_iff, and_comm]
    have split' : ∀ l : List α,
        l.filter (fun a => decide (toLex (major a, minor a) = toLex (x, y))) =
          (l.filter (fun a => decide (minor a = y))).filter (fun a => decide (major a = x)) := by
      intro l
      rw [List.filter_filter]
      apply List.filter_congr
      intro a _
      simp [Prod.ext_iff]
    rw [split out, h₂.2 x, ← split mid, split' mid, h₁.2 y, ← split' inp]
  refine ⟨?_, fun z => hfilter (ofLex z).1 (ofLex z).2⟩
  have hminor : out.Pairwise (fun a b => major a = major b → minor a ≤ minor b) := by
    apply pairwise_of_filter_pairwise major
    intro x
    rw [h₂.2 x]
    exact h₁.1.filter _
  refine (h₂.1.and hminor).imp ?_
  intro a b hab
  rw [Prod.Lex.le_iff]
  rcases lt_or_eq_of_le hab.1 with hlt | heq
  · exact Or.inl hlt
  · exact Or.inr ⟨heq, hab.2 heq⟩

/-- Insertion into a list does not disturb the order inside a class of equal keys. -/
theorem filter_orderedInsert {key : α → β} (r : α → α → Prop) [DecidableRel r]
    (hr : ∀ a b, r a b ↔ key a ≤ key b) (x : β) (a : α) :
    ∀ l : List α, (l.orderedInsert r a).filter (fun c => decide (key c = x)) =
      (a :: l).filter (fun c => decide (key c = x))
  | [] => rfl
  | b :: t => by
    rw [List.orderedInsert]
    split
    · rfl
    · next hab =>
      have hlt : key b < key a := lt_of_not_le (fun h => hab ((hr a b).mpr h))
      by_cases hb : key b = x
      · have ha : ¬ key a = x := fun h => (ne_of_lt hlt) (hb.trans h.symm)
        rw [List.filter_cons_of_pos (by simpa using hb), filter_orderedInsert r hr x a t,
          List.filter_cons_of_neg (by simpa using ha), List.filter_cons_of_neg
          (by simpa using ha), List.filter_cons_of_pos (by simpa using hb)]
      · rw [List.filter_cons_of_neg (by simpa using hb), filter_orderedInsert r hr x a t]
        by_cases ha : key a = x
        · rw [List.filter_cons_of_pos (by simpa using ha), List.filter_cons_of_pos
            (by simpa using ha), List.filter_cons_of_neg (by simpa using hb)]
        · rw [List.filter_cons_of_neg (by simpa using ha), List.filter_cons_of_neg
            (by simpa using ha), List.filter_cons_of_neg (by simpa using hb)]

/-- Insertion sort by a key is a stable sort. -/
theorem isStableSortBy_insertionSort (key : α → β) (r : α → α → Prop) [DecidableRel r]
    (hr : ∀ a b, r a b ↔ key a ≤ key b) (l : List α) :
    IsStableSortBy key l (l.insertionSort r) := by
  constructor
  · haveI : IsTotal α r := ⟨fun a b => by
      rw [hr, hr]
      exact le_total _ _⟩
    haveI : IsTrans α r := ⟨fun a b c => by
      rw [hr, hr, hr]
      exact le_trans⟩
    exact (List.sorted_insertionSort r l).imp (fun {a b} h => (hr a b).mp h)
  · intro x
    induction l with
    | nil => rfl
    | cons a t ih =>
      rw [List.insertionSort, filter_orderedInsert r hr x a]
      by_cases ha : key a = x
      · rw [List.filter_cons_of_pos (by simpa using ha), List.filter_cons_of_pos
          (by simpa using ha), ih]
      · rw [List.filter_cons_of_neg (by simpa using ha), List.filter_cons_of_neg
          (by simpa using ha), ih]

end StableSort

/-! ## The primitives -/

theorem UINT_RANGE_pos : 0 < UINT_RANGE := by decide

theorem to_uint_lt (x : Nat) : to_uint x < UINT_RANGE :=
  Nat.mod_lt x UINT_RANGE_pos

theorem to_uint_of_lt {x : Nat} (h : x < UINT_RANGE) : to_uint x = x :=
  Nat.mod_eq_of_lt h

/-- No index wraps around when the array has at most `2 ^ 32` elements. -/
theorem sequence_eq_range {n : Nat} (h : n ≤ UINT_RANGE) : sequence n = List.range n := by
  unfold sequence
  conv_rhs => rw [← List.map_id (List.range n)]
  apply List.map_congr_left
  intro i hi
  exact to_uint_of_lt (lt_of_lt_of_le (List.mem_range.mp hi) h)

theorem length_sequence (n : Nat) : (sequence n).length = n := by
  simp [sequence]

theorem mem_sequence_lt {n v : Nat} (h : v ∈ sequence n) : v < UINT_RANGE := by
  unfold sequence at h
  rcases List.mem_map.mp h with ⟨i, _, rfl⟩
  exact to_uint_lt i

/-- A gather whose indices are all inside the input succeeds and reads the addressed
elements in map order. -/
theorem gather_eq_some {α : Type} (input : List α) :
    ∀ (map : List Nat), (∀ i ∈ map, i < input.length) →
      gather map input = some (map.filterMap (fun i => input[i]?))
  | [], _ => rfl
  | i :: rest, h => by
    have hi : i < input.length := h i (List.mem_cons_self _ _)
    have ih := gather_eq_some input rest (fun j hj => h j (List.mem_cons_of_mem _ hj))
    have e : input[i]? = some input[i] := List.getElem?_eq_getElem hi
    rw [gather, ih, List.filterMap_cons_some e, e]

theorem gather_length {α : Type} (input : List α) :
    ∀ (map : List Nat) (out : List α), gather map input = some out → out.length = map.length
  | [], out, h => by
    rw [gather] at h
    rw [← Option.some.inj h]
    rfl
  | i :: rest, out, h => by
    rw [gather] at h
    cases hx : input[i]? with
    | none => rw [hx] at h; exact Option.noConfusion h
    | some x =>
      cases hr : gather rest input with
      | none => rw [hx, hr] at h; exact Option.noConfusion h
      | some o =>
        rw [hx, hr] at h
        rw [← Option.some.inj h, List.length_cons, List.length_cons,
          gather_length input rest o hr]

/-- A gather returns `out` when every output element is the input element at its index. -/
theorem gather_of_zip {α : Type} (input : List α) :
    ∀ (map : List Nat) (out : List α), out.length = map.length →
      (∀ q ∈ out.zip map, input[q.2]? = some q.1) → gather map input = some out
  | [], [], _, _ => rfl
  | [], _ :: _, hlen, _ => by simp at hlen
  | _ :: _, [], hlen, _ => by simp at hlen
  | i :: rest, x :: o, hlen, h => by
    have hx : input[i]? = some x := h (x, i) (by simp)
    have ih := gather_of_zip input rest o (by simpa using hlen)
      (fun q hq => h q (by rw [List.zip_cons_cons]; exact List.mem_cons_of_mem _ hq))
    rw [gather, hx, ih]

theorem filterMap_getElem?_range {α : Type} :
    ∀ (l : List α), (List.range l.length).filterMap (fun i => l[i]?) = l
  | [] => rfl
  | a :: t => by
    have e : (fun i => (a :: t)[i]?) 0 = some a := by simp
    have e' : (fun i => (a :: t)[i]?) ∘ Nat.succ = fun i => t[i]? := by
      funext i
      simp
    rw [List.length_cons, List.range_succ_eq_map, List.filterMap_cons_some e,
      List.filterMap_map, e', filterMap_getElem?_range t]

theorem filterMap_getElem?_zip {α β : Type} (a : List α) (b : List β)
    (hab : a.length = b.length) :
    ∀ (p : List Nat), p.filterMap (fun i => (a.zip b)[i]?) =
      (p.filterMap (fun i => a[i]?)).zip (p.filterMap (fun i => b[i]?))
  | [] => rfl
  | i :: rest => by
    have ih := filterMap_getElem?_zip a b hab rest
    by_cases hi : i < a.length
    · have hib : i < b.length := hab ▸ hi
      have hz : i < (a.zip b).length := by simp [List.length_zip, hi, hib]
      have e : (a.zip b)[i]? = some (a[i], b[i]) := by
        rw [List.getElem?_eq_getElem hz, List.getElem_zip]
      rw [List.filterMap_cons_some e, List.filterMap_cons_some (List.getElem?_eq_getElem hi),
        List.filterMap_cons_some (List.getElem?_eq_getElem hib), List.zip_cons_cons, ih]
    · have hib : ¬ i < b.length := hab ▸ hi
      have hz : ¬ i < (a.zip b).length := by simp [List.length_zip, hi]
      rw [List.filterMap_cons_none (List.getElem?_eq_none (not_lt.mp hz)),
        List.filterMap_cons_none (List.getElem?_eq_none (not_lt.mp hi)),
        List.filterMap_cons_none (List.getElem?_eq_none (not_lt.mp hib)), ih]

theorem filterMap_getElem?_of_perm_range {n : Nat} {p : List Nat} (h : ∀ i ∈ p, i < n) :
    p.filterMap (fun i => (List.range n)[i]?) = p := by
  induction p with
  | nil => rfl
  | cons i rest ih =>
    rw [List.filterMap_cons_some (List.getElem?_range (h i (List.mem_cons_self _ _))),
      ih (fun j hj => h j (List.mem_cons_of_mem _ hj))]

theorem mem_zip_map_range {τ : Type} (F : τ → Nat) (w : List τ) (q : Nat × Nat)
    (hq : q ∈ (w.map F).zip (List.range w.length)) : (w[q.2]?).map F = some q.1 := by
  rcases List.getElem?_of_mem hq with ⟨i, hi⟩
  rw [List.getElem?_zip_eq_some] at hi
  rcases hi with ⟨h1, h2⟩
  have hlt : i < w.length := by
    by_contra hge
    rw [List.getElem?_eq_none (by simpa using hge)] at h2
    exact Option.noConfusion h2
  rw [List.getElem?_range hlt] at h2
  have h2' : i = q.2 := Option.some.inj h2
  rw [← h2', ← h1, List.getElem?_map]

/-- One pass of the two-pass sorter: sorting the stored keys of `w` together with the
identity sequence leaves in the value buffer a permutation of the indices that, read
through `w`, is the stable sort of `w` by its stored key. -/
theorem key_value_pass {τ : Type} {ty : BitsType} {sort : KeyValueSort}
    (hsort : StableKeyValueSort ty sort) (f : τ → Nat) (w : List τ)
    (hn : w.length ≤ UINT_RANGE) :
    (∀ i ∈ (sort (transform w (fun a => to_uint (f a))) (sequence w.length)).2,
        i < w.length) ∧
      (sort (transform w (fun a => to_uint (f a))) (sequence w.length)).2.Perm
        (List.range w.length) ∧
      IsStableSortBy (fun a => ty.value (to_uint (f a))) w
        ((sort (transform w (fun a => to_uint (f a))) (sequence w.length)).2.filterMap
          (fun i => w[i]?)) := by
  have hlen : (transform w (fun a => to_uint (f a))).length = (sequence w.length).length := by
    simp [transform, length_sequence]
  have hk : ∀ k ∈ transform w (fun a => to_uint (f a)), k < UINT_RANGE := by
    intro k hk
    rcases List.mem_map.mp hk with ⟨a, _, rfl⟩
    exact to_uint_lt _
  obtain ⟨hl1, hl2, hst⟩ := hsort _ _ hlen hk (fun v hv => mem_sequence_lt hv)
  rw [sequence_eq_range hn] at hl1 hl2 hst ⊢
  rw [List.length_range] at hl2
  have hw : (transform w (fun a => to_uint (f a))).length = w.length := by simp [transform]
  rw [hw] at hl1
  set F : τ → Nat := fun a => to_uint (f a) with hF
  set ks := (sort (transform w F) (List.range w.length)).1 with hks
  set p := (sort (transform w F) (List.range w.length)).2 with hp
  have hperm : p.Perm (List.range w.length) := by
    have h1 := hst.perm.map Prod.snd
    rwa [List.map_snd_zip _ _ (by rw [hl1, hl2]), List.map_snd_zip _ _
      (by simp [transform])] at h1
  have hlt : ∀ i ∈ p, i < w.length := fun i hi => List.mem_range.mp (hperm.subset hi)
  refine ⟨hlt, hperm, ?_⟩
  have htr := hst.filterMap (fun a => ty.value (F a)) (fun q => w[q.2]?) (by
    intro q hq c hc
    have := mem_zip_map_range F w q hq
    change w[q.2]? = some c at hc
    rw [hc] at this
    simp only [Option.map_some', Option.some.injEq] at this
    show ty.value (F c) = ty.value q.1
    rw [this])
  have e1 : ((transform w F).zip (List.range w.length)).filterMap (fun q => w[q.2]?) = w := by
    have : (fun q : Nat × Nat => w[q.2]?) = (fun i => w[i]?) ∘ Prod.snd := rfl
    rw [this, ← List.filterMap_map, List.map_snd_zip _ _ (by simp [transform]),
      filterMap_getElem?_range]
  have e2 : (ks.zip p).filterMap (fun q => w[q.2]?) = p.filterMap (fun i => w[i]?) := by
    have : (fun q : Nat × Nat => w[q.2]?) = (fun i => w[i]?) ∘ Prod.snd := rfl
    rw [this, ← List.filterMap_map, List.map_snd_zip _ _ (by rw [hl1, hl2])]
  rwa [e1, e2] at htr

/-- One pass on keys that carry tags: both gathers through the sorted index buffer succeed,
and the gathered (key, tag) pairs are the stable sort of the given pairs by the pass key. -/
theorem tagged_pass {KeyType : Type} {ty : BitsType} {sort : KeyValueSort}
    (hsort : StableKeyValueSort ty sort) (extract_bits : KeyType → Nat) (xs : List KeyType)
    (tags : List Nat) (htags : tags.length = xs.length) (hn : xs.length ≤ UINT_RANGE) :
    (sort (transform xs (fun k => to_uint (extract_bits k))) (sequence xs.length)).2.Perm
        (List.range xs.length) ∧
      gather (sort (transform xs (fun k => to_uint (extract_bits k))) (sequence xs.length)).2 xs
        = some ((sort (transform xs (fun k => to_uint (extract_bits k)))
            (sequence xs.length)).2.filterMap (fun i => xs[i]?)) ∧
      gather (sort (transform xs (fun k => to_uint (extract_bits k))) (sequence xs.length)).2
          tags
        = some ((sort (transform xs (fun k => to_uint (extract_bits k)))
            (sequence xs.length)).2.filterMap (fun i => tags[i]?)) ∧
      IsStableSortBy (fun q : KeyType × Nat => pass_key ty extract_bits q.1) (xs.zip tags)
        (((sort (transform xs (fun k => to_uint (extract_bits k)))
            (sequence xs.length)).2.filterMap (fun i => xs[i]?)).zip
          ((sort (transform xs (fun k => to_uint (extract_bits k)))
            (sequence xs.length)).2.filterMap (fun i => tags[i]?))) := by
  have hwlen : (xs.zip tags).length = xs.length := by simp [List.length_zip, htags]
  have hw : transform (xs.zip tags) (fun q : KeyType × Nat => to_uint (extract_bits q.1)) =
      transform xs (fun k => to_uint (extract_bits k)) := by
    unfold transform
    have : (fun q : KeyType × Nat => to_uint (extract_bits q.1)) =
        (fun k => to_uint (extract_bits k)) ∘ Prod.fst := rfl
    rw [this, ← List.map_map, List.map_fst_zip _ _ (by rw [htags])]
  have h := key_value_pass hsort (fun q : KeyType × Nat => extract_bits q.1) (xs.zip tags)
    (by rw [hwlen]; exact hn)
  rw [hw, hwlen] at h
  obtain ⟨hlt, hperm, hst⟩ := h
  refine ⟨hperm, gather_eq_some xs _ hlt, gather_eq_some tags _ (by rw [htags]; exact hlt), ?_⟩
  rw [filterMap_getElem?_zip xs tags htags.symm] at hst
  exact hst

/-- The modelled primitive meets the contract of a stable key-value sort. -/
theorem stable_radix_sort_key_value_dev_stable (ty : BitsType) :
    StableKeyValueSort ty (stable_radix_sort_key_value_dev ty) := by
  intro keys values _ _ _
  have hst := isStableSortBy_insertionSort (fun p : Nat × Nat => ty.value p.1)
    (fun a b : Nat × Nat => ty.value a.1 ≤ ty.value b.1) (fun _ _ => Iff.rfl)
    (keys.zip values)
  have hlen := hst.length_eq
  unfold stable_radix_sort_key_value_dev
  refine ⟨?_, ?_, ?_⟩
  · simp only [List.unzip_fst, List.length_map]
    rw [hlen]
    simp [List.length_zip, *]
  · simp only [List.unzip_snd, List.length_map]
    rw [hlen]
    simp [List.length_zip, *]
  · rw [List.zip_unzip]
    exact hst

/-- The modelled primitive only reorders its value buffer. -/
theorem stable_radix_sort_key_value_dev_permutes (ty : BitsType) :
    PermutesValues (stable_radix_sort_key_value_dev ty) := by
  intro keys values hlen
  have hst := isStableSortBy_insertionSort (fun p : Nat × Nat => ty.value p.1)
    (fun a b : Nat × Nat => ty.value a.1 ≤ ty.value b.1) (fun _ _ => Iff.rfl)
    (keys.zip values)
  have := hst.perm.map Prod.snd
  rw [List.map_snd_zip _ _ (by rw [hlen])] at this
  unfold stable_radix_sort_key_value_dev
  rw [List.unzip_snd]
  exact this

/-! ## The two-pass sorter -/

/-- What the buffers hold when the two-pass sorter returns: each index buffer is the value
buffer the primitive leaves, and each gather read through it. -/
theorem large_dev_buffers {KeyType : Type} (sort_key_value : BitsType → KeyValueSort)
    (LowerBits UpperBits : BitsType) (extract_lower_bits extract_upper_bits : KeyType → Nat)
    (keys : List KeyType) (b : LargeDevBuffers KeyType)
    (h : stable_radix_sort_key_large_dev sort_key_value LowerBits UpperBits
      extract_lower_bits extract_upper_bits keys = some b) :
    b.lower_permutation =
        (sort_key_value LowerBits (transform keys (fun k => to_uint (extract_lower_bits k)))
          (sequence keys.length)).2 ∧
      gather b.lower_permutation keys = some b.permuted_keys ∧
      b.permutation =
        (sort_key_value UpperBits
          (transform b.permuted_keys (fun k => to_uint (extract_upper_bits k)))
          (sequence keys.length)).2 ∧
      gather b.permutation b.permuted_keys = some b.keys := by
  unfold stable_radix_sort_key_large_dev at h
  simp only at h
  split at h
  · exact Option.noConfusion h
  · rename_i permuted_keys hg1
    split at h
    · exact Option.noConfusion h
    · rename_i sorted_keys hg2
      have hb := Option.some.inj h
      subst hb
      exact ⟨rfl, hg1, rfl, hg2⟩

/-- The two-pass sorter under the contract of its primitive: it returns, both index buffers
are permutations of `0..N-1`, each gather reads what the statement names, and each pass is a
stable sort of (key, original index) pairs by the bits of that pass. -/
theorem large_dev_passes {KeyType : Type} (sort_key_value : BitsType → KeyValueSort)
    (LowerBits UpperBits : BitsType) (extract_lower_bits extract_upper_bits : KeyType → Nat)
    (keys : List KeyType)
    (hlower : StableKeyValueSort LowerBits (sort_key_value LowerBits))
    (hupper : StableKeyValueSort UpperBits (sort_key_value UpperBits))
    (hn : keys.length ≤ UINT_RANGE) :
    ∃ (b : LargeDevBuffers KeyType) (composed : List Nat),
      stable_radix_sort_key_large_dev sort_key_value LowerBits UpperBits
          extract_lower_bits extract_upper_bits keys = some b ∧
        b.lower_permutation.Perm (List.range keys.length) ∧
        b.permutation.Perm (List.range keys.length) ∧
        gather b.lower_permutation keys = some b.permuted_keys ∧
        gather b.permutation b.permuted_keys = some b.keys ∧
        gather b.permutation b.lower_permutation = some composed ∧
        IsStableSortBy (fun q : KeyType × Nat => pass_key LowerBits extract_lower_bits q.1)
          (keys.zip (List.range keys.length)) (b.permuted_keys.zip b.lower_permutation) ∧
        IsStableSortBy (fun q : KeyType × Nat => pass_key UpperBits extract_upper_bits q.1)
          (b.permuted_keys.zip b.lower_permutation) (b.keys.zip composed) := by
  obtain ⟨hperm1, hg1, _, hst1⟩ := tagged_pass hlower extract_lower_bits keys
    (List.range keys.length) (List.length_range _) hn
  set p1 := (sort_key_value LowerBits (transform keys (fun k => to_uint (extract_lower_bits k)))
    (sequence keys.length)).2 with hp1
  have hlt1 : ∀ i ∈ p1, i < keys.length := fun i hi => List.mem_range.mp (hperm1.subset hi)
  rw [filterMap_getElem?_of_perm_range hlt1] at hst1
  set ys := p1.filterMap (fun i => keys[i]?) with hys
  have hys_perm : ys.Perm keys := by
    have := hperm1.filterMap (fun i => keys[i]?)
    rwa [filterMap_getElem?_range] at this
  have hys_len : ys.length = keys.length := hys_perm.length_eq
  have hp1_len : p1.length = ys.length := by
    rw [hys_len, hperm1.length_eq, List.length_range]
  obtain ⟨hperm2, hg2, hg2t, hst2⟩ := tagged_pass hupper extract_upper_bits ys p1 hp1_len
    (by rw [hys_len]; exact hn)
  rw [hys_len] at hperm2 hg2 hg2t hst2
  set p2 := (sort_key_value UpperBits (transform ys (fun k => to_uint (extract_upper_bits k)))
    (sequence keys.length)).2 with hp2
  refine ⟨⟨p1, ys, p2, p2.filterMap (fun i => ys[i]?)⟩, p2.filterMap (fun i => p1[i]?),
    ?_, hperm1, hperm2, hg1, hg2, hg2t, hst1, hst2⟩
  unfold stable_radix_sort_key_large_dev
  simp only [← hp1, hg1, ← hp2, hg2]

theorem mem_zip_range {α : Type} (l : List α) (q : α × Nat)
    (hq : q ∈ l.zip (List.range l.length)) : l[q.2]? = some q.1 := by
  rcases List.getElem?_of_mem hq with ⟨i, hi⟩
  rw [List.getElem?_zip_eq_some] at hi
  rcases hi with ⟨h1, h2⟩
  have hlt : i < l.length := by
    by_contra hge
    rw [List.getElem?_eq_none (by simpa using hge)] at h1
    exact Option.noConfusion h1
  rw [List.getElem?_range hlt] at h2
  rw [← Option.some.inj h2]
  exact h1

/-- The two-pass sorter is one stable sort of (key, original index) pairs by the pair
(upper bits, lower bits): `composed` is the index buffer of the second pass read through
that of the first. -/
theorem large_dev_stable {KeyType : Type} (sort_key_value : BitsType → KeyValueSort)
    (LowerBits UpperBits : BitsType) (extract_lower_bits extract_upper_bits : KeyType → Nat)
    (keys : List KeyType)
    (hlower : StableKeyValueSort LowerBits (sort_key_value LowerBits))
    (hupper : StableKeyValueSort UpperBits (sort_key_value UpperBits))
    (hn : keys.length ≤ UINT_RANGE) :
    ∃ (b : LargeDevBuffers KeyType) (composed : List Nat),
      stable_radix_sort_key_large_dev sort_key_value LowerBits UpperBits
          extract_lower_bits extract_upper_bits keys = some b ∧
        gather b.permutation b.lower_permutation = some composed ∧
        gather composed keys = some b.keys ∧
        b.keys.length = composed.length ∧
        IsStableSortBy
          (fun q : KeyType × Nat =>
            full_key LowerBits UpperBits extract_lower_bits extract_upper_bits q.1)
          (keys.zip (List.range keys.length)) (b.keys.zip composed) := by
  obtain ⟨b, composed, hb, _, _, _, hg2, hgc, hst1, hst2⟩ := large_dev_passes sort_key_value
    LowerBits UpperBits extract_lower_bits extract_upper_bits keys hlower hupper hn
  have hst := hst1.comp hst2
  have hlen : b.keys.length = composed.length := by
    rw [gather_length _ _ _ hg2, gather_length _ _ _ hgc]
  refine ⟨b, composed, hb, hgc, ?_, hlen, hst⟩
  apply gather_of_zip keys composed b.keys hlen
  intro q hq
  exact mem_zip_range keys q ((hst.mem_iff q).mp hq)

/-- Dropping the index tags of a stable sort of tagged keys. -/
theorem IsStableSortBy.untag {KeyType β : Type} [LinearOrder β] {key : KeyType → β}
    {xs ys : List KeyType} {s t : List Nat} (hs : xs.length = s.length)
    (ht : ys.length = t.length)
    (h : IsStableSortBy (fun q : KeyType × Nat => key q.1) (xs.zip s) (ys.zip t)) :
    IsStableSortBy key xs ys := by
  have h' := h.filterMap key (fun q => some q.1) (by
    intro q _ c hc
    rw [← Option.some.inj hc])
  have e : (fun q : KeyType × Nat => some q.1) = some ∘ Prod.fst := rfl
  rw [e, List.filterMap_eq_map, List.map_fst_zip _ _ (le_of_eq hs),
    List.map_fst_zip _ _ (le_of_eq ht)] at h'
  exact h'

/-- The output of the two-pass sorter is the stable sort of its input by the pair
(upper bits, lower bits), and a reordering of the input. -/
theorem large_dev_keys {KeyType : Type} (sort_key_value : BitsType → KeyValueSort)
    (LowerBits UpperBits : BitsType) (extract_lower_bits extract_upper_bits : KeyType → Nat)
    (keys : List KeyType)
    (hlower : StableKeyValueSort LowerBits (sort_key_value LowerBits))
    (hupper : StableKeyValueSort UpperBits (sort_key_value UpperBits))
    (hn : keys.length ≤ UINT_RANGE) :
    ∃ b : LargeDevBuffers KeyType,
      stable_radix_sort_key_large_dev sort_key_value LowerBits UpperBits
          extract_lower_bits extract_upper_bits keys = some b ∧
        b.keys.Perm keys ∧
        IsStableSortBy (full_key LowerBits UpperBits extract_lower_bits extract_upper_bits)
          keys b.keys := by
  obtain ⟨b, composed, hb, _, _, hlen, hst⟩ := large_dev_stable sort_key_value
    LowerBits UpperBits extract_lower_bits extract_upper_bits keys hlower hupper hn
  refine ⟨b, hb, ?_, hst.untag (List.length_range _).symm hlen⟩
  classical
  have := hst.perm.map Prod.fst
  rwa [List.map_fst_zip _ _ (le_of_eq hlen), List.map_fst_zip _ _
    (le_of_eq (List.length_range _).symm)] at this

/-- A pairwise relation read at two positions of the list. -/
theorem pairwise_getElem? {α : Type} {R : α → α → Prop} {l : List α} (h : l.Pairwise R)
    (i j : Nat) (x y : α) (hij : i < j) (hx : l[i]? = some x) (hy : l[j]? = some y) :
    R x y := by
  rw [List.getElem?_eq_some_iff] at hx hy
  obtain ⟨hi, rfl⟩ := hx
  obtain ⟨hj, rfl⟩ := hy
  exact List.pairwise_iff_getElem.mp h i j hi hj hij

theorem full_key_uint64 {k : Nat} (hk : k < 2 ^ 64) :
    full_key .unsigned_int .unsigned_int lower_32_bits_uint64 upper_32_bits_uint64 k =
      toLex (((k / 2 ^ 32 : Nat) : Int), ((k % 2 ^ 32 : Nat) : Int)) := by
  have h1 : to_uint (k % 2 ^ 32) = k % 2 ^ 32 := to_uint_of_lt (Nat.mod_lt _ (by norm_num))
  have h2 : to_uint (k / 2 ^ 32) = k / 2 ^ 32 := by
    apply to_uint_of_lt
    unfold UINT_RANGE
    omega
  simp only [full_key, pass_key, lower_32_bits_uint64, upper_32_bits_uint64, h1, h2,
    BitsType.value]

/-- The unsigned 64-bit path orders its output by upper half, then lower half. -/
theorem uint64_output_pairwise (sort_key_value : BitsType → KeyValueSort) (keys : List Nat)
    (hsort : StableKeyValueSort .unsigned_int (sort_key_value .unsigned_int))
    (hkeys : ∀ k ∈ keys, k < 2 ^ 64) (hn : keys.length ≤ UINT_RANGE) :
    ∃ output, stable_radix_sort_key_dev_uint64 sort_key_value keys = some output ∧
      output.Perm keys ∧
      output.Pairwise (fun a b =>
        a / 2 ^ 32 < b / 2 ^ 32 ∨ (a / 2 ^ 32 = b / 2 ^ 32 ∧ a % 2 ^ 32 ≤ b % 2 ^ 32)) := by
  obtain ⟨b, hb, hperm, hst⟩ := large_dev_keys sort_key_value .unsigned_int .unsigned_int
    lower_32_bits_uint64 upper_32_bits_uint64 keys hsort hsort hn
  refine ⟨b.keys, ?_, hperm, ?_⟩
  · unfold stable_radix_sort_key_dev_uint64
    rw [hb]
    rfl
  · refine hst.1.imp_of_mem ?_
    intro x y hx hy hxy
    rw [full_key_uint64 (hkeys x (hperm.subset hx)), full_key_uint64 (hkeys y (hperm.subset hy)),
      Prod.Lex.le_iff] at hxy
    simp only [Nat.cast_lt, Nat.cast_le, Nat.cast_inj] at hxy
    exact hxy

/-- C1. For every array of unsigned 64-bit keys, the two-pass sorter run with
`lower(k) = k mod 2^32`, `upper(k) = k div 2^32` and a stable unsigned sort-by-key primitive
returns a reordering of the keys in ascending order: `output[i] ≤ output[j]` for all `i < j`.
In particular two keys with the same upper 32 bits are ordered by their lower 32 bits. -/
theorem uint64_sort_ascending (sort_key_value : BitsType → KeyValueSort) (keys : List Nat)
    (hsort : StableKeyValueSort .unsigned_int (sort_key_value .unsigned_int))
    (hkeys : ∀ k ∈ keys, k < 2 ^ 64) (hn : keys.length ≤ UINT_RANGE) :
    ∃ output, stable_radix_sort_key_dev_uint64 sort_key_value keys = some output ∧
      output.Perm keys ∧
      (∀ (i j x y : Nat), i < j → output[i]? = some x → output[j]? = some y → x ≤ y) ∧
      (∀ (i j x y : Nat), i < j → output[i]? = some x → output[j]? = some y →
        x / 2 ^ 32 = y / 2 ^ 32 → x % 2 ^ 32 ≤ y % 2 ^ 32) := by
  obtain ⟨output, hout, hperm, hpw⟩ := uint64_output_pairwise sort_key_value keys hsort hkeys hn
  refine ⟨output, hout, hperm, ?_, ?_⟩
  · intro i j x y hij hx hy
    have := pairwise_getElem? hpw i j x y hij hx hy
    omega
  · intro i j x y hij hx hy hxy
    have := pairwise_getElem? hpw i j x y hij hx hy
    omega

/-- Witness for C1 with the modelled primitive: `2^32 + 5` and `2^32 + 1` share their upper
half and come out ordered by their lower half. -/
theorem uint64_sort_ascending_witness :
    StableKeyValueSort .unsigned_int (stable_radix_sort_key_value_dev .unsigned_int) ∧
      stable_radix_sort_key_dev_uint64 stable_radix_sort_key_value_dev
        [2 ^ 32 + 5, 7, 2 ^ 32 + 1, 3] = some [3, 7, 2 ^ 32 + 1, 2 ^ 32 + 5] ∧
      ∃ output, stable_radix_sort_key_dev_uint64 stable_radix_sort_key_value_dev
          [2 ^ 32 + 5, 7, 2 ^ 32 + 1, 3] = some output ∧
        output.Perm [2 ^ 32 + 5, 7, 2 ^ 32 + 1, 3] ∧
        (∀ (i j x y : Nat), i < j → output[i]? = some x → output[j]? = some y → x ≤ y) ∧
        (∀ (i j x y : Nat), i < j → output[i]? = some x → output[j]? = some y →
          x / 2 ^ 32 = y / 2 ^ 32 → x % 2 ^ 32 ≤ y % 2 ^ 32) :=
  ⟨stable_radix_sort_key_value_dev_stable _, by decide,
    uint64_sort_ascending stable_radix_sort_key_value_dev [2 ^ 32 + 5, 7, 2 ^ 32 + 1, 3]
      (stable_radix_sort_key_value_dev_stable _) (by decide) (by decide)⟩

theorem pairwise_snd_zip_range {α : Type} (l : List α) :
    (l.zip (List.range l.length)).Pairwise (fun q r => q.2 < r.2) := by
  have h := List.pairwise_lt_range l.length
  rw [← List.map_snd_zip l (List.range l.length) (le_of_eq (List.length_range _)),
    List.pairwise_map] at h
  exact h

/-- C2. For every key array and every pair of extractors the two-pass sorter is a stable
sort on the pair (upper bits, lower bits). With `p1` the index buffer the lower-bits pass
leaves, `p2` the one the upper-bits pass leaves and `composed[i] = p1[p2[i]]`:
`output[i] = input[composed[i]]`;
`composed` lists the original indices `0..N-1` in ascending order of (upper, lower), ties in
ascending original index; and the (key, index) pairs it returns are the one stable sort of
the (key, original index) pairs by the full key. -/
theorem large_dev_is_stable_sort {KeyType : Type} (sort_key_value : BitsType → KeyValueSort)
    (LowerBits UpperBits : BitsType) (extract_lower_bits extract_upper_bits : KeyType → Nat)
    (keys : List KeyType)
    (hlower : StableKeyValueSort LowerBits (sort_key_value LowerBits))
    (hupper : StableKeyValueSort UpperBits (sort_key_value UpperBits))
    (hn : keys.length ≤ UINT_RANGE) :
    ∃ (b : LargeDevBuffers KeyType) (composed : List Nat),
      stable_radix_sort_key_large_dev sort_key_value LowerBits UpperBits
          extract_lower_bits extract_upper_bits keys = some b ∧
        b.lower_permutation =
          (sort_key_value LowerBits (transform keys (fun k => to_uint (extract_lower_bits k)))
            (sequence keys.length)).2 ∧
        b.permutation =
          (sort_key_value UpperBits
            (transform b.permuted_keys (fun k => to_uint (extract_upper_bits k)))
            (sequence keys.length)).2 ∧
        gather b.permutation b.lower_permutation = some composed ∧
        gather composed keys = some b.keys ∧
        composed.Perm (List.range keys.length) ∧
        (b.keys.zip composed).Pairwise (fun q r =>
          full_key LowerBits UpperBits extract_lower_bits extract_upper_bits q.1 <
              full_key LowerBits UpperBits extract_lower_bits extract_upper_bits r.1 ∨
            (full_key LowerBits UpperBits extract_lower_bits extract_upper_bits q.1 =
                full_key LowerBits UpperBits extract_lower_bits extract_upper_bits r.1 ∧
              q.2 < r.2)) ∧
        IsStableSortBy
          (fun q : KeyType × Nat =>
            full_key LowerBits UpperBits extract_lower_bits extract_upper_bits q.1)
          (keys.zip (List.range keys.length)) (b.keys.zip composed) ∧
        ∀ one_pass : List (KeyType × Nat),
          IsStableSortBy
            (fun q : KeyType × Nat =>
              full_key LowerBits UpperBits extract_lower_bits extract_upper_bits q.1)
            (keys.zip (List.range keys.length)) one_pass →
          one_pass = b.keys.zip composed := by
  obtain ⟨b, composed, hb, hgc, hgk, hlen, hst⟩ := large_dev_stable sort_key_value
    LowerBits UpperBits extract_lower_bits extract_upper_bits keys hlower hupper hn
  obtain ⟨hp1, _, hp2, _⟩ := large_dev_buffers sort_key_value LowerBits UpperBits
    extract_lower_bits extract_upper_bits keys b hb
  refine ⟨b, composed, hb, hp1, hp2, hgc, hgk, ?_, ?_, hst, fun one_pass h => h.unique hst⟩
  · classical
    have := hst.perm.map Prod.snd
    rwa [List.map_snd_zip _ _ (le_of_eq hlen.symm), List.map_snd_zip _ _
      (le_of_eq (List.length_range _))] at this
  · have hties : (b.keys.zip composed).Pairwise (fun q r =>
        full_key LowerBits UpperBits extract_lower_bits extract_upper_bits q.1 =
          full_key LowerBits UpperBits extract_lower_bits extract_upper_bits r.1 →
            q.2 < r.2) := by
      apply pairwise_of_filter_pairwise
        (fun q : KeyType × Nat =>
          full_key LowerBits UpperBits extract_lower_bits extract_upper_bits q.1)
      intro x
      rw [hst.2 x]
      exact (pairwise_snd_zip_range keys).filter _
    refine (hst.1.and hties).imp ?_
    intro q r h
    rcases lt_or_eq_of_le h.1 with hlt | heq
    · exact Or.inl hlt
    · exact Or.inr ⟨heq, h.2 heq⟩

/-- Witness for C2 with the modelled primitive on four keys, two of them equal. -/
theorem large_dev_is_stable_sort_witness :
    StableKeyValueSort .unsigned_int (stable_radix_sort_key_value_dev .unsigned_int) ∧
      stable_radix_sort_key_large_dev stable_radix_sort_key_value_dev
          .unsigned_int .unsigned_int lower_32_bits_uint64 upper_32_bits_uint64
          [2 ^ 32 + 1, 1, 2 ^ 32 + 1, 0] =
        some { lower_permutation := [3, 0, 1, 2]
               permuted_keys := [0, 2 ^ 32 + 1, 1, 2 ^ 32 + 1]
               permutation := [0, 2, 1, 3]
               keys := [0, 1, 2 ^ 32 + 1, 2 ^ 32 + 1] } ∧
      ∃ (b : LargeDevBuffers Nat) (composed : List Nat),
        stable_radix_sort_key_large_dev stable_radix_sort_key_value_dev
            .unsigned_int .unsigned_int lower_32_bits_uint64 upper_32_bits_uint64
            [2 ^ 32 + 1, 1, 2 ^ 32 + 1, 0] = some b ∧
          b.lower_permutation =
            (stable_radix_sort_key_value_dev .unsigned_int
              (transform [2 ^ 32 + 1, 1, 2 ^ 32 + 1, 0]
                (fun k => to_uint (lower_32_bits_uint64 k)))
              (sequence [2 ^ 32 + 1, 1, 2 ^ 32 + 1, 0].length)).2 ∧
          b.permutation =
            (stable_radix_sort_key_value_dev .unsigned_int
              (transform b.permuted_keys (fun k => to_uint (upper_32_bits_uint64 k)))
              (sequence [2 ^ 32 + 1, 1, 2 ^ 32 + 1, 0].length)).2 ∧
          gather b.permutation b.lower_permutation = some composed ∧
          gather composed [2 ^ 32 + 1, 1, 2 ^ 32 + 1, 0] = some b.keys ∧
          composed.Perm (List.range [2 ^ 32 + 1, 1, 2 ^ 32 + 1, 0].length) ∧
          (b.keys.zip composed).Pairwise (fun q r =>
            full_key .unsigned_int .unsigned_int lower_32_bits_uint64 upper_32_bits_uint64 q.1 <
                full_key .unsigned_int .unsigned_int lower_32_bits_uint64 upper_32_bits_uint64
                  r.1 ∨
              (full_key .unsigned_int .unsigned_int lower_32_bits_uint64 upper_32_bits_uint64
                    q.1 =
                  full_key .unsigned_int .unsigned_int lower_32_bits_uint64
                    upper_32_bits_uint64 r.1 ∧
                q.2 < r.2)) ∧
          IsStableSortBy
            (fun q : Nat × Nat =>
              full_key .unsigned_int .unsigned_int lower_32_bits_uint64 upper_32_bits_uint64
                q.1)
            ([2 ^ 32 + 1, 1, 2 ^ 32 + 1, 0].zip
              (List.range [2 ^ 32 + 1, 1, 2 ^ 32 + 1, 0].length)) (b.keys.zip composed) ∧
          ∀ one_pass : List (Nat × Nat),
            IsStableSortBy
              (fun q : Nat × Nat =>
                full_key .unsigned_int .unsigned_int lower_32_bits_uint64
                  upper_32_bits_uint64 q.1)
              ([2 ^ 32 + 1, 1, 2 ^ 32 + 1, 0].zip
                (List.range [2 ^ 32 + 1, 1, 2 ^ 32 + 1, 0].length)) one_pass →
            one_pass = b.keys.zip composed :=
  ⟨stable_radix_sort_key_value_dev_stable _, by decide,
    large_dev_is_stable_sort stable_radix_sort_key_value_dev .unsigned_int .unsigned_int
      lower_32_bits_uint64 upper_32_bits_uint64 [2 ^ 32 + 1, 1, 2 ^ 32 + 1, 0]
      (stable_radix_sort_key_value_dev_stable _) (stable_radix_sort_key_value_dev_stable _)
      (by decide)⟩

/-- The two-pass sorter returns a reordering of its input as soon as each key-value pass
reorders the index buffer. -/
theorem large_dev_perm_of_permutes {KeyType : Type}
    (sort_key_value : BitsType → KeyValueSort)
    (LowerBits UpperBits : BitsType) (extract_lower_bits extract_upper_bits : KeyType → Nat)
    (keys : List KeyType)
    (hlower : PermutesValues (sort_key_value LowerBits))
    (hupper : PermutesValues (sort_key_value UpperBits))
    (hn : keys.length ≤ UINT_RANGE) :
    ∃ b : LargeDevBuffers KeyType,
      stable_radix_sort_key_large_dev sort_key_value LowerBits UpperBits
          extract_lower_bits extract_upper_bits keys = some b ∧
        b.keys.Perm keys := by
  have hperm1 := hlower (transform keys (fun k => to_uint (extract_lower_bits k)))
    (sequence keys.length) (by simp [transform, length_sequence])
  set p1 := (sort_key_value LowerBits (transform keys (fun k => to_uint (extract_lower_bits k)))
    (sequence keys.length)).2 with hp1
  rw [sequence_eq_range hn] at hperm1
  have hg1 := gather_eq_some keys p1 (fun i hi => List.mem_range.mp (hperm1.subset hi))
  set ys := p1.filterMap (fun i => keys[i]?) with hys
  have hys_perm : ys.Perm keys := by
    have := hperm1.filterMap (fun i => keys[i]?)
    rwa [filterMap_getElem?_range] at this
  have hys_len : ys.length = keys.length := hys_perm.length_eq
  have hperm2 := hupper (transform ys (fun k => to_uint (extract_upper_bits k)))
    (sequence keys.length) (by simp [transform, length_sequence, hys_len])
  set p2 := (sort_key_value UpperBits (transform ys (fun k => to_uint (extract_upper_bits k)))
    (sequence keys.length)).2 with hp2
  rw [sequence_eq_range hn, ← hys_len] at hperm2
  have hg2 := gather_eq_some ys p2 (fun i hi => List.mem_range.mp (hperm2.subset hi))
  refine ⟨⟨p1, ys, p2, p2.filterMap (fun i => ys[i]?)⟩, ?_, ?_⟩
  · unfold stable_radix_sort_key_large_dev
    simp only [← hp1, hg1, ← hp2, hg2]
  · have := hperm2.filterMap (fun i => ys[i]?)
    rw [filterMap_getElem?_range] at this
    exact this.trans hys_perm

/-- C3. For every key array and every pair of extractors, whatever they compute, the output
of the two-pass sorter is a reordering of its input, holding the original full-width key
values, provided only that each key-value sort pass permutes the index buffer. -/
theorem large_dev_permutes {KeyType : Type} (sort_key_value : BitsType → KeyValueSort)
    (LowerBits UpperBits : BitsType) (extract_lower_bits extract_upper_bits : KeyType → Nat)
    (keys : List KeyType)
    (hlower : PermutesValues (sort_key_value LowerBits))
    (hupper : PermutesValues (sort_key_value UpperBits))
    (hn : keys.length ≤ UINT_RANGE) :
    ∃ b : LargeDevBuffers KeyType,
      stable_radix_sort_key_large_dev sort_key_value LowerBits UpperBits
          extract_lower_bits extract_upper_bits keys = some b ∧
        b.keys.Perm keys :=
  large_dev_perm_of_permutes sort_key_value LowerBits UpperBits extract_lower_bits
    extract_upper_bits keys hlower hupper hn

/-- Witness for C3 with a primitive that is no sort at all (it reverses the value buffer)
and extractors that compute nothing of the key. -/
theorem large_dev_permutes_witness :
    PermutesValues (fun keys values => (keys, values.reverse)) ∧
      ∃ b : LargeDevBuffers Nat,
        stable_radix_sort_key_large_dev (fun _ keys values => (keys, values.reverse))
            .unsigned_int .int (fun _ => 0) (fun k => k * k) [2 ^ 63 + 7, 5, 2 ^ 40] = some b ∧
          b.keys.Perm [2 ^ 63 + 7, 5, 2 ^ 40] :=
  ⟨fun _ values _ => List.reverse_perm values,
    large_dev_permutes (fun _ keys values => (keys, values.reverse)) .unsigned_int .int
      (fun _ => 0) (fun k => k * k) [2 ^ 63 + 7, 5, 2 ^ 40]
      (fun _ values _ => List.reverse_perm values)
      (fun _ values _ => List.reverse_perm values) (by decide)⟩

/-! ## Bit flips -/

/-- Flipping bit `n` of a number below `2 ^ n` adds `2 ^ n`. -/
theorem xor_two_pow_of_lt (n : Nat) {x : Nat} (h : x < 2 ^ n) : x ^^^ 2 ^ n = x + 2 ^ n := by
  rw [Nat.add_comm]
  apply Nat.eq_of_testBit_eq
  intro i
  rw [Nat.testBit_xor, Nat.testBit_two_pow]
  rcases Nat.lt_trichotomy i n with hi | hi | hi
  · rw [Nat.testBit_two_pow_add_gt hi]
    have : ¬ (n = i) := by omega
    simp [this]
  · subst hi
    rw [Nat.testBit_two_pow_add_eq, Nat.testBit_lt_two_pow h]
    simp
  · have hpow : 2 ^ (n + 1) ≤ 2 ^ i := Nat.pow_le_pow_right (by norm_num) hi
    have hsucc : 2 ^ (n + 1) = 2 * 2 ^ n := by rw [Nat.pow_succ, Nat.mul_comm]
    have h1 : x < 2 ^ i := by omega
    have h2 : 2 ^ n + x < 2 ^ i := by omega
    rw [Nat.testBit_lt_two_pow h1, Nat.testBit_lt_two_pow h2]
    have : ¬ (n = i) := by omega
    simp [this]

/-- Flipping bit `n` of a number in `[2 ^ n, 2 ^ (n + 1))` subtracts `2 ^ n`. -/
theorem xor_two_pow_of_ge (n : Nat) {x : Nat} (h : 2 ^ n ≤ x) (h' : x < 2 ^ (n + 1)) :
    x ^^^ 2 ^ n = x - 2 ^ n := by
  have hsucc : 2 ^ (n + 1) = 2 * 2 ^ n := by rw [Nat.pow_succ, Nat.mul_comm]
  have hx : x = (x - 2 ^ n) ^^^ 2 ^ n := by
    rw [xor_two_pow_of_lt n (by omega)]
    omega
  conv_lhs => rw [hx]
  rw [Nat.xor_cancel_right]

/-- Inverting the low `n` bits of a number below `2 ^ n`. -/
theorem xor_two_pow_sub_one (n : Nat) {x : Nat} (h : x < 2 ^ n) :
    x ^^^ (2 ^ n - 1) = 2 ^ n - 1 - x := by
  have e' : 2 ^ n - 1 - x = 2 ^ n - (x + 1) := by omega
  rw [e']
  apply Nat.eq_of_testBit_eq
  intro i
  rw [Nat.testBit_xor, Nat.testBit_two_pow_sub_one, Nat.testBit_two_pow_sub_succ h]
  by_cases hi : i < n
  · simp [hi]
  · have h1 : x < 2 ^ i := lt_of_lt_of_le h (Nat.pow_le_pow_right (by norm_num) (by omega))
    simp [hi, Nat.testBit_lt_two_pow h1]

theorem xor_sign_of_lt {x : Nat} (h : x < 2 ^ 31) : x ^^^ 0x80000000 = x + 2 ^ 31 :=
  xor_two_pow_of_lt 31 h

theorem xor_sign_of_ge {x : Nat} (h : 2 ^ 31 ≤ x) (h' : x < 2 ^ 32) :
    x ^^^ 0x80000000 = x - 2 ^ 31 :=
  xor_two_pow_of_ge 31 h h'

theorem xor_ones {x : Nat} (h : x < 2 ^ 32) : x ^^^ 0xFFFFFFFF = 2 ^ 32 - 1 - x :=
  xor_two_pow_sub_one 32 h

/-! ## Paths built on the 32-bit base sorter -/

section SortThrough

variable {α : Type}

theorem sort_through_perm (encode : α → Nat) (decode : Nat → α) (keys : List α)
    (hinv : ∀ k ∈ keys, decode (encode k) = k) : (sort_through encode decode keys).Perm keys := by
  unfold sort_through
  have h := (List.perm_insertionSort (fun a b : Nat => a ≤ b) (keys.map encode)).map decode
  have e : (keys.map encode).map decode = keys := by
    rw [List.map_map]
    conv_rhs => rw [← List.map_id keys]
    exact List.map_congr_left (fun k hk => hinv k hk)
  rwa [e] at h

/-- The encoded keys of the result ascend. -/
theorem sort_through_pairwise_encode (encode : α → Nat) (decode : Nat → α) (keys : List α)
    (hinv : ∀ k ∈ keys, decode (encode k) = k) :
    (sort_through encode decode keys).Pairwise (fun a b => encode a ≤ encode b) := by
  unfold sort_through
  rw [List.pairwise_map]
  have hs : ((keys.map encode).insertionSort (fun a b => a ≤ b)).Pairwise (fun a b => a ≤ b) :=
    List.sorted_insertionSort (fun a b : Nat => a ≤ b) (keys.map encode)
  have hmem : ∀ u ∈ (keys.map encode).insertionSort (fun a b => a ≤ b),
      ∃ k ∈ keys, encode k = u := by
    intro u hu
    have := (List.perm_insertionSort (fun a b : Nat => a ≤ b) (keys.map encode)).subset hu
    exact List.mem_map.mp this
  refine hs.imp_of_mem ?_
  intro u v hu hv huv
  obtain ⟨a, ha, rfl⟩ := hmem u hu
  obtain ⟨b, hb, rfl⟩ := hmem v hv
  rw [hinv a ha, hinv b hb]
  exact huv

theorem sort_through_sorted [Preorder α] (encode : α → Nat) (decode : Nat → α) (keys : List α)
    (hinv : ∀ k ∈ keys, decode (encode k) = k)
    (hmono : ∀ a ∈ keys, ∀ b ∈ keys, encode a ≤ encode b → a ≤ b) :
    (sort_through encode decode keys).Pairwise (fun a b => a ≤ b) := by
  have hperm := sort_through_perm encode decode keys hinv
  refine (sort_through_pairwise_encode encode decode keys hinv).imp_of_mem ?_
  intro a b ha hb hab
  exact hmono a (hperm.subset ha) b (hperm.subset hb) hab

/-- An array whose encoded keys already ascend comes back unchanged. -/
theorem sort_through_of_sorted (encode : α → Nat) (decode : Nat → α) (keys : List α)
    (hinv : ∀ k ∈ keys, decode (encode k) = k)
    (hsorted : keys.Pairwise (fun a b => encode a ≤ encode b)) :
    sort_through encode decode keys = keys := by
  unfold sort_through
  have hs : (keys.map encode).Sorted (fun a b => a ≤ b) := by
    unfold List.Sorted
    rw [List.pairwise_map]
    exact hsorted
  rw [hs.insertionSort_eq, List.map_map]
  conv_rhs => rw [← List.map_id keys]
  exact List.map_congr_left (fun k hk => hinv k hk)

/-- Sorting twice is sorting once. -/
theorem sort_through_twice (encode : α → Nat) (decode : Nat → α) (keys : List α)
    (hinv : ∀ k ∈ keys, decode (encode k) = k) :
    sort_through encode decode (sort_through encode decode keys) =
      sort_through encode decode keys := by
  have hperm := sort_through_perm encode decode keys hinv
  exact sort_through_of_sorted encode decode _ (fun k hk => hinv k (hperm.subset hk))
    (sort_through_pairwise_encode encode decode keys hinv)

end SortThrough

theorem radix_sort_eq (keys : List Nat) (preprocess postprocess : Nat → Nat)
    (bits : Option Nat) :
    radix_sort keys preprocess postprocess bits =
      sort_through (fun k => to_uint (preprocess k)) (fun k => to_uint (postprocess k)) keys :=
  rfl

/-- An ascending reordering of 32-bit values is the list the modelled base sorter returns:
the result of a keys-only sort does not depend on the sorting algorithm. -/
theorem sorted_perm_eq_insertionSort {l l' : List Nat} (hperm : l'.Perm l)
    (hsorted : l'.Pairwise (fun a b => a ≤ b)) :
    l' = l.insertionSort (fun a b => a ≤ b) :=
  List.eq_of_perm_of_sorted (r := fun a b : Nat => a ≤ b)
    (hperm.trans (List.perm_insertionSort _ l).symm) hsorted
    (List.sorted_insertionSort (fun a b : Nat => a ≤ b) l)

/-! ## Signed 32-bit keys -/

theorem int32_sorter_eq (keys : List Int) :
    stable_radix_sort_key_dev_int32 keys =
      sort_through (fun k => to_uint (encode_uint_int (reinterpret_as_uint k)))
        (fun u => BitsType.int.value (to_uint (encode_uint_int u))) keys := by
  simp only [stable_radix_sort_key_dev_int32, stable_radix_sort_key_dev_int32_with]
  split <;> simp only [radix_sort, transform, sort_through, List.map_map] <;> rfl

theorem int32_encode {k : Int} (h1 : -2 ^ 31 ≤ k) (h2 : k < 2 ^ 31) :
    to_uint (encode_uint_int (reinterpret_as_uint k)) = (k + 2 ^ 31).toNat := by
  unfold reinterpret_as_uint encode_uint_int to_uint UINT_RANGE
  by_cases hk : k < 0
  · have hr : (k % 2 ^ 32).toNat = (k + 2 ^ 32).toNat := by omega
    rw [hr, xor_sign_of_ge (by omega) (by omega)]
    omega
  · have hr : (k % 2 ^ 32).toNat = k.toNat := by omega
    rw [hr, xor_sign_of_lt (by omega)]
    omega

theorem int_value_eq (u : Nat) :
    BitsType.int.value u = if u < 2 ^ 31 then (u : Int) else (u : Int) - 2 ^ 32 :=
  rfl

theorem int32_decode {u : Nat} (h : u < 2 ^ 32) :
    BitsType.int.value (to_uint (encode_uint_int u)) = (u : Int) - 2 ^ 31 := by
  rw [int_value_eq]
  unfold encode_uint_int to_uint UINT_RANGE
  by_cases hu : u < 2 ^ 31
  · rw [xor_sign_of_lt hu]
    have e : (u + 2 ^ 31) % 2 ^ 32 = u + 2 ^ 31 := by omega
    rw [e, if_neg (by omega)]
    push_cast
    omega
  · rw [xor_sign_of_ge (by omega) h]
    have e : (u - 2 ^ 31) % 2 ^ 32 = u - 2 ^ 31 := by omega
    rw [e, if_pos (by omega)]
    omega

theorem int32_round_trip {k : Int} (h1 : -2 ^ 31 ≤ k) (h2 : k < 2 ^ 31) :
    BitsType.int.value (to_uint (encode_uint_int
      (to_uint (encode_uint_int (reinterpret_as_uint k))))) = k := by
  rw [int32_encode h1 h2, int32_decode (by omega)]
  omega

/-- The signed 32-bit sorter returns a reordering of its keys in ascending signed order. -/
theorem int32_sorted_perm (keys : List Int) (hkeys : ∀ k ∈ keys, -2 ^ 31 ≤ k ∧ k < 2 ^ 31) :
    (stable_radix_sort_key_dev_int32 keys).Perm keys ∧
      (stable_radix_sort_key_dev_int32 keys).Pairwise (fun a b => a ≤ b) := by
  rw [int32_sorter_eq]
  have hinv : ∀ k ∈ keys, BitsType.int.value (to_uint (encode_uint_int
      (to_uint (encode_uint_int (reinterpret_as_uint k))))) = k :=
    fun k hk => int32_round_trip (hkeys k hk).1 (hkeys k hk).2
  refine ⟨sort_through_perm _ _ keys hinv, sort_through_sorted _ _ keys hinv ?_⟩
  intro a ha b hb hab
  rw [int32_encode (hkeys a ha).1 (hkeys a ha).2, int32_encode (hkeys b hb).1 (hkeys b hb).2]
    at hab
  have := (hkeys a ha).1
  have := (hkeys b hb).1
  omega

/-- C4. For every array of signed 32-bit integers, whichever branch the minimum test
selects, the signed 32-bit sorter returns the input values in ascending signed order, so
every negative key precedes every non-negative key; on `[3, -1, 2, -1, 0]` it returns
`[-1, -1, 0, 2, 3]`. -/
theorem int32_sort_ascending (keys : List Int)
    (hkeys : ∀ k ∈ keys, -2 ^ 31 ≤ k ∧ k < 2 ^ 31) :
    (stable_radix_sort_key_dev_int32 keys).Perm keys ∧
      (∀ (i j : Nat) (x y : Int), i < j → (stable_radix_sort_key_dev_int32 keys)[i]? = some x →
        (stable_radix_sort_key_dev_int32 keys)[j]? = some y → x ≤ y) ∧
      (∀ (i j : Nat) (x y : Int), (stable_radix_sort_key_dev_int32 keys)[i]? = some x →
        (stable_radix_sort_key_dev_int32 keys)[j]? = some y → x < 0 → 0 ≤ y → i < j) ∧
      stable_radix_sort_key_dev_int32 [3, -1, 2, -1, 0] = [-1, -1, 0, 2, 3] := by
  obtain ⟨hperm, hsorted⟩ := int32_sorted_perm keys hkeys
  refine ⟨hperm, fun i j x y hij hx hy => pairwise_getElem? hsorted i j x y hij hx hy, ?_,
    by decide⟩
  intro i j x y hx hy hneg hpos
  by_contra hij
  rcases Nat.lt_or_eq_of_le (not_lt.mp hij) with hlt | heq
  · have := pairwise_getElem? hsorted j i y x hlt hy hx
    omega
  · rw [heq, hx] at hy
    have := Option.some.inj hy
    omega

/-- Witness for C4: one array for each branch of the minimum test. -/
theorem int32_sort_ascending_witness :
    int32_branch (reduce [3, -1, 2, -1, 0] 0 minimum) = .full_encode_decode ∧
      int32_branch (reduce [7, 0, 2147483647, 5] 0 minimum) = .unsigned_shortcut ∧
      stable_radix_sort_key_dev_int32 [7, 0, 2147483647, 5] = [0, 5, 7, 2147483647] ∧
      (stable_radix_sort_key_dev_int32 [3, -1, 2, -1, 0]).Perm [3, -1, 2, -1, 0] ∧
      (∀ (i j : Nat) (x y : Int), i < j →
        (stable_radix_sort_key_dev_int32 [3, -1, 2, -1, 0])[i]? = some x →
        (stable_radix_sort_key_dev_int32 [3, -1, 2, -1, 0])[j]? = some y → x ≤ y) ∧
      (∀ (i j : Nat) (x y : Int),
        (stable_radix_sort_key_dev_int32 [3, -1, 2, -1, 0])[i]? = some x →
        (stable_radix_sort_key_dev_int32 [3, -1, 2, -1, 0])[j]? = some y →
        x < 0 → 0 ≤ y → i < j) ∧
      stable_radix_sort_key_dev_int32 [3, -1, 2, -1, 0] = [-1, -1, 0, 2, 3] :=
  ⟨by decide, by decide, by decide, int32_sort_ascending [3, -1, 2, -1, 0] (by decide)⟩

/-! ### The minimum test -/

theorem minimum_neg_iff (a b : Int) : minimum a b < 0 ↔ a < 0 ∨ b < 0 := by
  unfold minimum
  split <;> omega

theorem reduce_minimum_neg_iff (keys : List Int) :
    ∀ init : Int, reduce keys init minimum < 0 ↔ init < 0 ∨ ∃ k ∈ keys, k < 0 := by
  unfold reduce
  induction keys with
  | nil => intro init; simp
  | cons a t ih =>
    intro init
    rw [List.foldl_cons, ih, minimum_neg_iff]
    simp only [List.mem_cons, exists_eq_or_imp]
    tauto

theorem int32_min_val_neg_iff (keys : List Int) :
    reduce keys 0 minimum < 0 ↔ ∃ k ∈ keys, k < 0 := by
  rw [reduce_minimum_neg_iff]
  simp

theorem int32_branch_full_iff (keys : List Int) :
    int32_branch (reduce keys 0 minimum) = .full_encode_decode ↔ ∃ k ∈ keys, k < 0 := by
  rw [← int32_min_val_neg_iff]
  unfold int32_branch
  by_cases h : reduce keys 0 minimum < 0
  · rw [if_pos h]
    simp [h]
  · rw [if_neg h]
    simp [h]

theorem int32_branch_shortcut_iff (keys : List Int) :
    int32_branch (reduce keys 0 minimum) = .unsigned_shortcut ↔ ∀ k ∈ keys, 0 ≤ k := by
  have : (∀ k ∈ keys, 0 ≤ k) ↔ ¬ ∃ k ∈ keys, k < 0 := by
    simp only [not_exists, not_and, not_lt]
  rw [this, ← int32_min_val_neg_iff]
  unfold int32_branch
  by_cases h : reduce keys 0 minimum < 0
  · rw [if_pos h]
    simp [h]
  · rw [if_neg h]
    simp [h]

/-- With a negative key the sorter makes the call of line 123, whatever the base sorter and
the functors are. -/
theorem int32_with_of_negative (radix_sort_call : RadixSort) (encode_uint decode_uint : Nat → Nat)
    (keys : List Int) (h : ∃ k ∈ keys, k < 0) :
    stable_radix_sort_key_dev_int32_with radix_sort_call encode_uint decode_uint keys =
      (radix_sort_call (keys.map reinterpret_as_uint) encode_uint decode_uint (some 32)).map
        BitsType.int.value := by
  unfold stable_radix_sort_key_dev_int32_with
  simp only [(int32_branch_full_iff keys).mpr h]

/-- Without a negative key the sorter makes the call of line 126. -/
theorem int32_with_of_nonneg (radix_sort_call : RadixSort) (encode_uint decode_uint : Nat → Nat)
    (keys : List Int) (h : ∀ k ∈ keys, 0 ≤ k) :
    stable_radix_sort_key_dev_int32_with radix_sort_call encode_uint decode_uint keys =
      (radix_sort_call (keys.map reinterpret_as_uint) encode_uint encode_uint none).map
        BitsType.int.value := by
  unfold stable_radix_sort_key_dev_int32_with
  simp only [(int32_branch_shortcut_iff keys).mpr h]

theorem exists_negative_or_all_nonneg (keys : List Int) :
    (∃ k ∈ keys, k < 0) ∨ ∀ k ∈ keys, 0 ≤ k := by
  by_cases h : ∃ k ∈ keys, k < 0
  · exact Or.inl h
  · right
    intro k hk
    by_contra hneg
    exact h ⟨k, hk, not_le.mp hneg⟩

/-- Whenever the two calls give different results, the result of the sorter tells which
call it made, and it made the call of line 123 exactly when a key is negative. -/
theorem int32_with_call_iff (radix_sort_call : RadixSort) (encode_uint decode_uint : Nat → Nat)
    (keys : List Int)
    (hne : (radix_sort_call (keys.map reinterpret_as_uint) encode_uint decode_uint
        (some 32)).map BitsType.int.value ≠
      (radix_sort_call (keys.map reinterpret_as_uint) encode_uint encode_uint none).map
        BitsType.int.value) :
    (stable_radix_sort_key_dev_int32_with radix_sort_call encode_uint decode_uint keys =
        (radix_sort_call (keys.map reinterpret_as_uint) encode_uint decode_uint (some 32)).map
          BitsType.int.value ↔ ∃ k ∈ keys, k < 0) ∧
      (stable_radix_sort_key_dev_int32_with radix_sort_call encode_uint decode_uint keys =
        (radix_sort_call (keys.map reinterpret_as_uint) encode_uint encode_uint none).map
          BitsType.int.value ↔ ∀ k ∈ keys, 0 ≤ k) := by
  rcases exists_negative_or_all_nonneg keys with hneg | hpos
  · have hfull := int32_with_of_negative radix_sort_call encode_uint decode_uint keys hneg
    refine ⟨⟨fun _ => hneg, fun _ => hfull⟩, ⟨fun h => ?_, fun h => ?_⟩⟩
    · exact absurd (hfull.symm.trans h) hne
    · obtain ⟨k, hk, hlt⟩ := hneg
      exact absurd (h k hk) (not_le.mpr hlt)
  · have hshort := int32_with_of_nonneg radix_sort_call encode_uint decode_uint keys hpos
    refine ⟨⟨fun h => ?_, fun h => ?_⟩, ⟨fun _ => hpos, fun _ => hshort⟩⟩
    · exact absurd (h.symm.trans hshort) hne
    · obtain ⟨k, hk, hlt⟩ := h
      exact absurd (hpos k hk) (not_le.mpr hlt)

/-- C5. In the signed 32-bit sorter, `min_val`, the reduction of the keys with `minimum`
from the initial value 0, is negative if and only if some key is negative. Hence the full
32-bit encode/decode branch is taken exactly when a negative key is present, and the
unsigned shortcut exactly when every key is non-negative, the empty array included. The
branch is read off the sorter itself: for every base sorter and every pair of functors put
in the place of `radix_sort`, `encode_uint` and `decode_uint`, the sorter returns what the
call of line 123 (encode, decode, 32 bits) returns when a key is negative and what the call
of line 126 (encode, encode, no bit count) returns otherwise; a base sorter that reports its
bit count, or its post-processing functor, shows which call was made. -/
theorem int32_branch_iff (keys : List Int) :
    (reduce keys 0 minimum < 0 ↔ ∃ k ∈ keys, k < 0) ∧
      (int32_branch (reduce keys 0 minimum) = .full_encode_decode ↔ ∃ k ∈ keys, k < 0) ∧
      (int32_branch (reduce keys 0 minimum) = .unsigned_shortcut ↔ ∀ k ∈ keys, 0 ≤ k) ∧
      (∀ (radix_sort_call : RadixSort) (encode_uint decode_uint : Nat → Nat),
        (∃ k ∈ keys, k < 0) →
          stable_radix_sort_key_dev_int32_with radix_sort_call encode_uint decode_uint keys =
            (radix_sort_call (keys.map reinterpret_as_uint) encode_uint decode_uint
              (some 32)).map BitsType.int.value) ∧
      (∀ (radix_sort_call : RadixSort) (encode_uint decode_uint : Nat → Nat),
        (∀ k ∈ keys, 0 ≤ k) →
          stable_radix_sort_key_dev_int32_with radix_sort_call encode_uint decode_uint keys =
            (radix_sort_call (keys.map reinterpret_as_uint) encode_uint encode_uint
              none).map BitsType.int.value) ∧
      (∀ (radix_sort_call : RadixSort) (encode_uint decode_uint : Nat → Nat),
        (radix_sort_call (keys.map reinterpret_as_uint) encode_uint decode_uint
            (some 32)).map BitsType.int.value ≠
          (radix_sort_call (keys.map reinterpret_as_uint) encode_uint encode_uint none).map
            BitsType.int.value →
        (stable_radix_sort_key_dev_int32_with radix_sort_call encode_uint decode_uint keys =
            (radix_sort_call (keys.map reinterpret_as_uint) encode_uint decode_uint
              (some 32)).map BitsType.int.value ↔ ∃ k ∈ keys, k < 0) ∧
          (stable_radix_sort_key_dev_int32_with radix_sort_call encode_uint decode_uint keys =
            (radix_sort_call (keys.map reinterpret_as_uint) encode_uint encode_uint
              none).map BitsType.int.value ↔ ∀ k ∈ keys, 0 ≤ k)) ∧
      (∀ encode_uint decode_uint : Nat → Nat,
        stable_radix_sort_key_dev_int32_with
            (fun _ _ _ bits => if bits = some 32 then [1] else [0])
            encode_uint decode_uint keys = [1] ↔ ∃ k ∈ keys, k < 0) ∧
      (stable_radix_sort_key_dev_int32_with (fun _ _ postprocess _ => [postprocess 0])
          (fun _ => 0) (fun _ => 1) keys = [1] ↔ ∃ k ∈ keys, k < 0) ∧
      ((∃ k ∈ keys, k < 0) → stable_radix_sort_key_dev_int32 keys =
        (radix_sort (keys.map reinterpret_as_uint) encode_uint_int decode_uint_int
          (some 32)).map BitsType.int.value) ∧
      ((∀ k ∈ keys, 0 ≤ k) → stable_radix_sort_key_dev_int32 keys =
        (radix_sort (keys.map reinterpret_as_uint) encode_uint_int encode_uint_int
          none).map BitsType.int.value) ∧
      int32_branch (reduce ([] : List Int) 0 minimum) = .unsigned_shortcut := by
  refine ⟨int32_min_val_neg_iff keys, int32_branch_full_iff keys,
    int32_branch_shortcut_iff keys,
    fun rs e d h => int32_with_of_negative rs e d keys h,
    fun rs e d h => int32_with_of_nonneg rs e d keys h,
    fun rs e d hne => int32_with_call_iff rs e d keys hne, ?_, ?_,
    fun h => int32_with_of_negative radix_sort encode_uint_int decode_uint_int keys h,
    fun h => int32_with_of_nonneg radix_sort encode_uint_int decode_uint_int keys h, rfl⟩
  · intro encode_uint decode_uint
    have hfull : ((fun (_ : List Nat) (_ _ : Nat → Nat) (bits : Option Nat) =>
          if bits = some 32 then [1] else [0]) (keys.map reinterpret_as_uint) encode_uint
          decode_uint (some 32)).map BitsType.int.value = [1] := rfl
    have hshort : ((fun (_ : List Nat) (_ _ : Nat → Nat) (bits : Option Nat) =>
          if bits = some 32 then [1] else [0]) (keys.map reinterpret_as_uint) encode_uint
          encode_uint none).map BitsType.int.value = [0] := rfl
    have h := (int32_with_call_iff (fun _ _ _ bits => if bits = some 32 then [1] else [0])
      encode_uint decode_uint keys (by rw [hfull, hshort]; decide)).1
    rwa [hfull] at h
  · have hfull : ((fun (_ : List Nat) (_ postprocess : Nat → Nat) (_ : Option Nat) =>
          [postprocess 0]) (keys.map reinterpret_as_uint) (fun _ => 0) (fun _ => 1)
          (some 32)).map BitsType.int.value = [1] := rfl
    have hshort : ((fun (_ : List Nat) (_ postprocess : Nat → Nat) (_ : Option Nat) =>
          [postprocess 0]) (keys.map reinterpret_as_uint) (fun _ => 0) (fun _ => 0)
          none).map BitsType.int.value = [0] := rfl
    have h := (int32_with_call_iff (fun _ _ postprocess _ => [postprocess 0])
      (fun _ => 0) (fun _ => 1) keys (by rw [hfull, hshort]; decide)).1
    rwa [hfull] at h

/-- Witness for C5: a base sorter that only reports its bit count, on an array with a
negative key, on one without, and on the empty array. -/
theorem int32_branch_iff_witness :
    stable_radix_sort_key_dev_int32_with
        (fun _ _ _ bits => if bits = some 32 then [1] else [0])
        encode_uint_int decode_uint_int [3, -1, 2] = [1] ∧
      stable_radix_sort_key_dev_int32_with
        (fun _ _ _ bits => if bits = some 32 then [1] else [0])
        encode_uint_int decode_uint_int [3, 1, 2] = [0] ∧
      stable_radix_sort_key_dev_int32_with
        (fun _ _ _ bits => if bits = some 32 then [1] else [0])
        encode_uint_int decode_uint_int [] = [0] ∧
      stable_radix_sort_key_dev_int32_with (fun _ _ postprocess _ => [postprocess 0])
        (fun _ => 0) (fun _ => 1) [3, -1, 2] = [1] :=
  ⟨((int32_branch_iff [3, -1, 2]).2.2.2.2.2.2.1 encode_uint_int decode_uint_int).mpr
      (by decide),
    by decide, by decide, (int32_branch_iff [3, -1, 2]).2.2.2.2.2.2.2.1.mpr (by decide)⟩

/-! ## Signed 64-bit keys -/

theorem negatives_first {l : List Int} (h : l.Pairwise (fun a b => a ≤ b)) (i j : Nat)
    (x y : Int) (hx : l[i]? = some x) (hy : l[j]? = some y) (hneg : x < 0) (hpos : 0 ≤ y) :
    i < j := by
  by_contra hij
  rcases Nat.lt_or_eq_of_le (not_lt.mp hij) with hlt | heq
  · have := pairwise_getElem? h j i y x hlt hy hx
    omega
  · rw [heq, hx] at hy
    have := Option.some.inj hy
    omega

theorem full_key_int64 {k : Int} (h1 : -2 ^ 63 ≤ k) (h2 : k < 2 ^ 63) :
    full_key .unsigned_int .int lower_32_bits_int64 upper_32_bits_int64 k =
      toLex (k / 2 ^ 32, k % 2 ^ 32) := by
  have hl : to_uint (lower_32_bits_int64 k) = (k % 2 ^ 32).toNat := by
    unfold lower_32_bits_int64 to_uint UINT_RANGE
    omega
  have hu : to_uint (upper_32_bits_int64 k) = ((k / 2 ^ 32) % 2 ^ 32).toNat := by
    unfold upper_32_bits_int64 to_uint UINT_RANGE
    omega
  have hlv : BitsType.unsigned_int.value (k % 2 ^ 32).toNat = k % 2 ^ 32 := by
    show (((k % 2 ^ 32).toNat : Nat) : Int) = k % 2 ^ 32
    omega
  have huv : BitsType.int.value ((k / 2 ^ 32) % 2 ^ 32).toNat = k / 2 ^ 32 := by
    rw [int_value_eq]
    split <;> omega
  simp only [full_key, pass_key, hl, hu, hlv, huv]

/-- C6. For every array of signed 64-bit integers the int64 path, whose first pass sorts the
lower 32 bits as `unsigned int` and whose second pass sorts the upper 32 bits as `int`,
returns the keys in ascending signed order, every negative key before every non-negative
key. -/
theorem int64_sort_ascending (sort_key_value : BitsType → KeyValueSort) (keys : List Int)
    (hlower : StableKeyValueSort .unsigned_int (sort_key_value .unsigned_int))
    (hupper : StableKeyValueSort .int (sort_key_value .int))
    (hkeys : ∀ k ∈ keys, -2 ^ 63 ≤ k ∧ k < 2 ^ 63) (hn : keys.length ≤ UINT_RANGE) :
    ∃ output, stable_radix_sort_key_dev_int64 sort_key_value keys = some output ∧
      output.Perm keys ∧
      (∀ (i j : Nat) (x y : Int), i < j → output[i]? = some x → output[j]? = some y → x ≤ y) ∧
      (∀ (i j : Nat) (x y : Int), output[i]? = some x → output[j]? = some y →
        x < 0 → 0 ≤ y → i < j) := by
  obtain ⟨b, hb, hperm, hst⟩ := large_dev_keys sort_key_value .unsigned_int .int
    lower_32_bits_int64 upper_32_bits_int64 keys hlower hupper hn
  have hsorted : b.keys.Pairwise (fun a b => a ≤ b) := by
    refine hst.1.imp_of_mem ?_
    intro x y hx hy hxy
    have hx' := hkeys x (hperm.subset hx)
    have hy' := hkeys y (hperm.subset hy)
    rw [full_key_int64 hx'.1 hx'.2, full_key_int64 hy'.1 hy'.2, Prod.Lex.le_iff] at hxy
    simp only at hxy
    omega
  refine ⟨b.keys, ?_, hperm, fun i j x y hij hx hy => pairwise_getElem? hsorted i j x y hij hx hy,
    fun i j x y hx hy => negatives_first hsorted i j x y hx hy⟩
  unfold stable_radix_sort_key_dev_int64
  rw [hb]
  rfl

/-- Witness for C6 with the modelled primitive: `-1` and `-2^32` have a larger lower half
than `5`, and still precede it. -/
theorem int64_sort_ascending_witness :
    StableKeyValueSort .unsigned_int (stable_radix_sort_key_value_dev .unsigned_int) ∧
      StableKeyValueSort .int (stable_radix_sort_key_value_dev .int) ∧
      stable_radix_sort_key_dev_int64 stable_radix_sort_key_value_dev
        [5, -1, 2 ^ 40, -2 ^ 32, 0, -2 ^ 63] = some [-2 ^ 63, -2 ^ 32, -1, 0, 5, 2 ^ 40] ∧
      ∃ output, stable_radix_sort_key_dev_int64 stable_radix_sort_key_value_dev
          [5, -1, 2 ^ 40, -2 ^ 32, 0, -2 ^ 63] = some output ∧
        output.Perm [5, -1, 2 ^ 40, -2 ^ 32, 0, -2 ^ 63] ∧
        (∀ (i j : Nat) (x y : Int), i < j → output[i]? = some x → output[j]? = some y →
          x ≤ y) ∧
        (∀ (i j : Nat) (x y : Int), output[i]? = some x → output[j]? = some y →
          x < 0 → 0 ≤ y → i < j) :=
  ⟨stable_radix_sort_key_value_dev_stable _, stable_radix_sort_key_value_dev_stable _,
    by decide,
    int64_sort_ascending stable_radix_sort_key_value_dev [5, -1, 2 ^ 40, -2 ^ 32, 0, -2 ^ 63]
      (stable_radix_sort_key_value_dev_stable _) (stable_radix_sort_key_value_dev_stable _)
      (by decide) (by decide)⟩

/-! ## 8-bit and 16-bit keys -/

theorem small_dev_eq {KeyType : Type} (encode_uint : KeyType → Nat)
    (decode_uint : Nat → KeyType) (keys : List KeyType) :
    stable_radix_sort_key_small_dev encode_uint decode_uint keys =
      sort_through (fun k => to_uint (encode_uint_unsigned (to_uint (encode_uint k))))
        (fun u => decode_uint (to_uint (encode_uint_unsigned u))) keys := by
  simp only [stable_radix_sort_key_small_dev, stable_radix_sort_key_dev_uint32, radix_sort,
    transform, sort_through, List.map_map]
  rfl

theorem small_dev_encode {KeyType : Type} {encode_uint : KeyType → Nat} {k : KeyType}
    (h : encode_uint k < UINT_RANGE) :
    to_uint (encode_uint_unsigned (to_uint (encode_uint k))) = encode_uint k := by
  unfold encode_uint_unsigned
  rw [to_uint_of_lt h, to_uint_of_lt h]

/-- C7. For every array of narrow keys, `stable_radix_sort_key_small_dev` returns
`map decode (sort32 (map encode keys))`, where `sort32` is the unsigned 32-bit sorter; when
`decode` is a left inverse of `encode` and `encode` is strictly order-preserving into
unsigned 32-bit values, the result is the input sorted in ascending order: a reordering of
the input of the same length whose keys ascend. -/
theorem small_dev_sorts {KeyType : Type} [LinearOrder KeyType] (encode_uint : KeyType → Nat)
    (decode_uint : Nat → KeyType) (keys : List KeyType)
    (hrange : ∀ k, encode_uint k < UINT_RANGE)
    (hinv : ∀ k, decode_uint (encode_uint k) = k)
    (hmono : ∀ a b, a < b → encode_uint a < encode_uint b) :
    stable_radix_sort_key_small_dev encode_uint decode_uint keys =
        (stable_radix_sort_key_dev_uint32 (keys.map encode_uint)).map decode_uint ∧
      (stable_radix_sort_key_small_dev encode_uint decode_uint keys).Perm keys ∧
      (stable_radix_sort_key_small_dev encode_uint decode_uint keys).length = keys.length ∧
      (∀ (i j : Nat) (x y : KeyType), i < j →
        (stable_radix_sort_key_small_dev encode_uint decode_uint keys)[i]? = some x →
        (stable_radix_sort_key_small_dev encode_uint decode_uint keys)[j]? = some y →
        x ≤ y) := by
  have hE : ∀ k, to_uint (encode_uint_unsigned (to_uint (encode_uint k))) = encode_uint k :=
    fun k => small_dev_encode (hrange k)
  have hround : ∀ k ∈ keys, decode_uint (to_uint (encode_uint_unsigned
      (to_uint (encode_uint_unsigned (to_uint (encode_uint k)))))) = k := by
    intro k _
    rw [hE k]
    unfold encode_uint_unsigned
    rw [to_uint_of_lt (hrange k), hinv]
  have hperm : (stable_radix_sort_key_small_dev encode_uint decode_uint keys).Perm keys := by
    rw [small_dev_eq]
    exact sort_through_perm _ _ keys hround
  have hsorted : (stable_radix_sort_key_small_dev encode_uint decode_uint keys).Pairwise
      (fun a b => a ≤ b) := by
    rw [small_dev_eq]
    refine sort_through_sorted _ _ keys hround ?_
    intro a _ b _ hab
    rw [hE a, hE b] at hab
    by_contra hlt
    exact absurd (hmono b a (not_le.mp hlt)) (not_lt.mpr hab)
  refine ⟨?_, hperm, hperm.length_eq,
    fun i j x y hij hx hy => pairwise_getElem? hsorted i j x y hij hx hy⟩
  have hmap : transform keys (fun k => to_uint (encode_uint k)) = keys.map encode_uint :=
    List.map_congr_left (fun k _ => to_uint_of_lt (hrange k))
  simp only [stable_radix_sort_key_small_dev, hmap]
  rfl

/-- Witness for C7: `unsigned char` keys, widened by their value and narrowed back. -/
theorem small_dev_sorts_witness :
    (∀ k : Fin 256, k.val < UINT_RANGE) ∧
      (∀ k : Fin 256, (fun u : Nat => if h : u < 256 then (⟨u, h⟩ : Fin 256) else 0) k.val = k) ∧
      stable_radix_sort_key_small_dev (fun k : Fin 256 => k.val)
          (fun u : Nat => if h : u < 256 then (⟨u, h⟩ : Fin 256) else 0) [200, 3, 255, 0, 3] =
        [0, 3, 3, 200, 255] ∧
      (stable_radix_sort_key_small_dev (fun k : Fin 256 => k.val)
            (fun u : Nat => if h : u < 256 then (⟨u, h⟩ : Fin 256) else 0) [200, 3, 255, 0, 3] =
          (stable_radix_sort_key_dev_uint32
            (([200, 3, 255, 0, 3] : List (Fin 256)).map (fun k : Fin 256 => k.val))).map
            (fun u : Nat => if h : u < 256 then (⟨u, h⟩ : Fin 256) else 0) ∧
        (stable_radix_sort_key_small_dev (fun k : Fin 256 => k.val)
          (fun u : Nat => if h : u < 256 then (⟨u, h⟩ : Fin 256) else 0)
          [200, 3, 255, 0, 3]).Perm [200, 3, 255, 0, 3] ∧
        (stable_radix_sort_key_small_dev (fun k : Fin 256 => k.val)
          (fun u : Nat => if h : u < 256 then (⟨u, h⟩ : Fin 256) else 0)
          [200, 3, 255, 0, 3]).length = ([200, 3, 255, 0, 3] : List (Fin 256)).length ∧
        (∀ (i j : Nat) (x y : Fin 256), i < j →
          (stable_radix_sort_key_small_dev (fun k : Fin 256 => k.val)
            (fun u : Nat => if h : u < 256 then (⟨u, h⟩ : Fin 256) else 0)
            [200, 3, 255, 0, 3])[i]? = some x →
          (stable_radix_sort_key_small_dev (fun k : Fin 256 => k.val)
            (fun u : Nat => if h : u < 256 then (⟨u, h⟩ : Fin 256) else 0)
            [200, 3, 255, 0, 3])[j]? = some y →
          x ≤ y)) :=
  ⟨fun k => lt_trans k.isLt (by decide), fun k => dif_pos k.isLt, by decide,
    small_dev_sorts (fun k : Fin 256 => k.val)
      (fun u : Nat => if h : u < 256 then (⟨u, h⟩ : Fin 256) else 0) [200, 3, 255, 0, 3]
      (fun k => lt_trans k.isLt (by decide)) (fun k => dif_pos k.isLt)
      (fun _ _ hab => hab)⟩

/-! ## Dispatch -/

/-- C8. The width classifier, as a function of `(sizeof(KeyType), is_exact, is_signed)`:
width 1 or 2 gives the small-key adapter whatever the category; width 4 and width 8 each
give three distinct paths for (exact, unsigned), (exact, signed) and (inexact, signed); every
width outside {1, 2, 4, 8} gives no path; and a path is selected exactly on the supported
inputs, one path for each. -/
theorem dispatch_selects :
    (∀ is_exact is_signed,
        stable_radix_sort_key_dev_dispatch 1 is_exact is_signed = some .small_dev ∧
        stable_radix_sort_key_dev_dispatch 2 is_exact is_signed = some .small_dev) ∧
      (stable_radix_sort_key_dev_dispatch 4 true false = some .uint32 ∧
        stable_radix_sort_key_dev_dispatch 4 true true = some .int32 ∧
        stable_radix_sort_key_dev_dispatch 4 false true = some .float32) ∧
      (stable_radix_sort_key_dev_dispatch 8 true false = some .uint64 ∧
        stable_radix_sort_key_dev_dispatch 8 true true = some .int64 ∧
        stable_radix_sort_key_dev_dispatch 8 false true = some .float64) ∧
      [CodePath.small_dev, .uint32, .int32, .float32, .uint64, .int64, .float64].Nodup ∧
      (∀ sizeof_KeyType is_exact is_signed,
        sizeof_KeyType ≠ 1 → sizeof_KeyType ≠ 2 → sizeof_KeyType ≠ 4 → sizeof_KeyType ≠ 8 →
        stable_radix_sort_key_dev_dispatch sizeof_KeyType is_exact is_signed = none) ∧
      (∀ sizeof_KeyType is_exact is_signed,
        (∃ path, stable_radix_sort_key_dev_dispatch sizeof_KeyType is_exact is_signed
            = some path ∧
          ∀ other, stable_radix_sort_key_dev_dispatch sizeof_KeyType is_exact is_signed
            = some other → other = path) ↔
        (sizeof_KeyType = 1 ∨ sizeof_KeyType = 2 ∨
          ((sizeof_KeyType = 4 ∨ sizeof_KeyType = 8) ∧
            (is_exact = true ∨ is_signed = true)))) := by
  have hnone : ∀ w e s, w ≠ 1 → w ≠ 2 → w ≠ 4 → w ≠ 8 →
      stable_radix_sort_key_dev_dispatch w e s = none := by
    intro w e s h1 h2 h4 h8
    unfold stable_radix_sort_key_dev_dispatch
    split
    · exact absurd rfl h1
    · exact absurd rfl h2
    · exact absurd rfl h4
    · exact absurd rfl h8
    · rfl
  refine ⟨fun _ _ => ⟨rfl, rfl⟩, ⟨rfl, rfl, rfl⟩, ⟨rfl, rfl, rfl⟩, by decide, hnone, ?_⟩
  intro w e s
  by_cases h1 : w = 1
  · subst h1
    simp [stable_radix_sort_key_dev_dispatch]
  by_cases h2 : w = 2
  · subst h2
    simp [stable_radix_sort_key_dev_dispatch]
  by_cases h4 : w = 4
  · subst h4
    cases e <;> cases s <;> simp [stable_radix_sort_key_dev_dispatch, dispatch_width_4]
  by_cases h8 : w = 8
  · subst h8
    cases e <;> cases s <;> simp [stable_radix_sort_key_dev_dispatch, dispatch_width_8]
  rw [hnone w e s h1 h2 h4 h8]
  simp [h1, h2, h4, h8]

/-! ## Unsigned 32-bit keys and 32-bit floats -/

theorem uint32_sorter_eq (keys : List Nat) :
    stable_radix_sort_key_dev_uint32 keys =
      sort_through (fun k => to_uint (encode_uint_unsigned k))
        (fun k => to_uint (encode_uint_unsigned k)) keys :=
  rfl

theorem uint32_round_trip {k : Nat} (h : k < 2 ^ 32) :
    to_uint (encode_uint_unsigned (to_uint (encode_uint_unsigned k))) = k := by
  unfold encode_uint_unsigned
  rw [to_uint_of_lt h, to_uint_of_lt h]

theorem float32_sorter_eq (keys : List Nat) :
    stable_radix_sort_key_dev_float32 keys =
      sort_through (fun k => to_uint (encode_uint_float k))
        (fun u => to_uint (decode_uint_float u)) keys :=
  rfl

theorem float32_encode {k : Nat} (h : k < 2 ^ 32) :
    to_uint (encode_uint_float k) = if k < 2 ^ 31 then k + 2 ^ 31 else 2 ^ 32 - 1 - k := by
  unfold encode_uint_float to_uint UINT_RANGE
  by_cases hk : k < 2 ^ 31
  · rw [if_pos (by omega), if_pos hk, xor_sign_of_lt hk]
    omega
  · rw [if_neg (by omega), if_neg hk, xor_ones h]
    omega

theorem float32_decode {u : Nat} (h : u < 2 ^ 32) :
    to_uint (decode_uint_float u) = if u < 2 ^ 31 then 2 ^ 32 - 1 - u else u - 2 ^ 31 := by
  unfold decode_uint_float to_uint UINT_RANGE
  by_cases hu : u < 2 ^ 31
  · rw [if_pos (by omega), if_pos hu, xor_ones h]
    omega
  · rw [if_neg (by omega), if_neg hu, xor_sign_of_ge (by omega) h]
    omega

theorem float32_round_trip {k : Nat} (h : k < 2 ^ 32) :
    to_uint (decode_uint_float (to_uint (encode_uint_float k))) = k := by
  rw [float32_encode h]
  by_cases hk : k < 2 ^ 31
  · rw [if_pos hk, float32_decode (by omega), if_neg (by omega)]
    omega
  · rw [if_neg hk, float32_decode (by omega), if_pos (by omega)]
    omega

/-! ## Boundary sizes -/

theorem sort_through_nil {α : Type} (encode : α → Nat) (decode : Nat → α) :
    sort_through encode decode [] = [] :=
  rfl

theorem sort_through_singleton {α : Type} (encode : α → Nat) (decode : Nat → α) (k : α) :
    sort_through encode decode [k] = [decode (encode k)] :=
  rfl

/-- C10. Boundary sizes: on every code path, the small-key adapter, the three 32-bit
sorters and the 64-bit two-pass sorter, a key array of length 0 comes back empty and a key
array of length 1 comes back unchanged. -/
theorem boundary_sizes :
    (∀ (KeyType : Type) (encode_uint : KeyType → Nat) (decode_uint : Nat → KeyType),
        stable_radix_sort_key_small_dev encode_uint decode_uint [] = [] ∧
        ∀ k, encode_uint k < UINT_RANGE → decode_uint (encode_uint k) = k →
          stable_radix_sort_key_small_dev encode_uint decode_uint [k] = [k]) ∧
      (stable_radix_sort_key_dev_uint32 [] = [] ∧
        ∀ k, k < 2 ^ 32 → stable_radix_sort_key_dev_uint32 [k] = [k]) ∧
      (stable_radix_sort_key_dev_int32 [] = [] ∧
        ∀ k, -2 ^ 31 ≤ k → k < 2 ^ 31 → stable_radix_sort_key_dev_int32 [k] = [k]) ∧
      (stable_radix_sort_key_dev_float32 [] = [] ∧
        ∀ k, k < 2 ^ 32 → stable_radix_sort_key_dev_float32 [k] = [k]) ∧
      (∀ (KeyType : Type) (sort_key_value : BitsType → KeyValueSort)
          (LowerBits UpperBits : BitsType)
          (extract_lower_bits extract_upper_bits : KeyType → Nat),
        PermutesValues (sort_key_value LowerBits) → PermutesValues (sort_key_value UpperBits) →
          (∃ b, stable_radix_sort_key_large_dev sort_key_value LowerBits UpperBits
              extract_lower_bits extract_upper_bits [] = some b ∧ b.keys = []) ∧
          ∀ k, ∃ b, stable_radix_sort_key_large_dev sort_key_value LowerBits UpperBits
              extract_lower_bits extract_upper_bits [k] = some b ∧ b.keys = [k]) := by
  refine ⟨?_, ⟨rfl, ?_⟩, ⟨rfl, ?_⟩, ⟨rfl, ?_⟩, ?_⟩
  · intro KeyType encode_uint decode_uint
    refine ⟨rfl, fun k hk hinv => ?_⟩
    rw [small_dev_eq, sort_through_singleton, small_dev_encode hk]
    unfold encode_uint_unsigned
    rw [to_uint_of_lt hk, hinv]
  · intro k hk
    rw [uint32_sorter_eq, sort_through_singleton, uint32_round_trip hk]
  · intro k h1 h2
    rw [int32_sorter_eq, sort_through_singleton, int32_round_trip h1 h2]
  · intro k hk
    rw [float32_sorter_eq, sort_through_singleton, float32_round_trip hk]
  · intro KeyType sort_key_value LowerBits UpperBits extract_lower_bits extract_upper_bits
      hlower hupper
    constructor
    · obtain ⟨b, hb, hperm⟩ := large_dev_perm_of_permutes sort_key_value LowerBits UpperBits
        extract_lower_bits extract_upper_bits [] hlower hupper (Nat.zero_le _)
      exact ⟨b, hb, List.perm_nil.mp hperm⟩
    · intro k
      obtain ⟨b, hb, hperm⟩ := large_dev_perm_of_permutes sort_key_value LowerBits UpperBits
        extract_lower_bits extract_upper_bits [k] hlower hupper UINT_RANGE_pos
      exact ⟨b, hb, List.perm_singleton.mp hperm⟩

/-! ## Idempotence -/

/-- Two reorderings of one another whose values both ascend carry the same values at every
position. -/
theorem map_eq_of_perm_of_pairwise {α : Type} (value : α → Int) {out keys : List α}
    (hperm : out.Perm keys) (hout : out.Pairwise (fun a b => value a ≤ value b))
    (hkeys : keys.Pairwise (fun a b => value a ≤ value b)) :
    out.map value = keys.map value := by
  apply List.eq_of_perm_of_sorted (r := fun a b : Int => a ≤ b) (hperm.map value)
  · unfold List.Sorted
    rw [List.pairwise_map]
    exact hout
  · unfold List.Sorted
    rw [List.pairwise_map]
    exact hkeys

theorem uint32_of_sorted (keys : List Nat) (hkeys : ∀ k ∈ keys, k < 2 ^ 32)
    (hsorted : keys.Pairwise (fun a b => a ≤ b)) :
    stable_radix_sort_key_dev_uint32 keys = keys := by
  rw [uint32_sorter_eq]
  refine sort_through_of_sorted _ _ keys (fun k hk => uint32_round_trip (hkeys k hk)) ?_
  refine hsorted.imp_of_mem ?_
  intro a b ha hb hab
  unfold encode_uint_unsigned
  rw [to_uint_of_lt (hkeys a ha), to_uint_of_lt (hkeys b hb)]
  exact hab

theorem uint32_twice (keys : List Nat) (hkeys : ∀ k ∈ keys, k < 2 ^ 32) :
    stable_radix_sort_key_dev_uint32 (stable_radix_sort_key_dev_uint32 keys) =
      stable_radix_sort_key_dev_uint32 keys := by
  rw [uint32_sorter_eq, uint32_sorter_eq]
  exact sort_through_twice _ _ keys (fun k hk => uint32_round_trip (hkeys k hk))

theorem int32_of_sorted (keys : List Int) (hkeys : ∀ k ∈ keys, -2 ^ 31 ≤ k ∧ k < 2 ^ 31)
    (hsorted : keys.Pairwise (fun a b => a ≤ b)) :
    stable_radix_sort_key_dev_int32 keys = keys := by
  rw [int32_sorter_eq]
  refine sort_through_of_sorted _ _ keys
    (fun k hk => int32_round_trip (hkeys k hk).1 (hkeys k hk).2) ?_
  refine hsorted.imp_of_mem ?_
  intro a b ha hb hab
  rw [int32_encode (hkeys a ha).1 (hkeys a ha).2, int32_encode (hkeys b hb).1 (hkeys b hb).2]
  omega

theorem int32_twice (keys : List Int) (hkeys : ∀ k ∈ keys, -2 ^ 31 ≤ k ∧ k < 2 ^ 31) :
    stable_radix_sort_key_dev_int32 (stable_radix_sort_key_dev_int32 keys) =
      stable_radix_sort_key_dev_int32 keys := by
  rw [int32_sorter_eq keys, int32_sorter_eq]
  exact sort_through_twice _ _ keys
    (fun k hk => int32_round_trip (hkeys k hk).1 (hkeys k hk).2)

theorem float32_of_sorted_encoded (keys : List Nat) (hkeys : ∀ k ∈ keys, k < 2 ^ 32)
    (hsorted : keys.Pairwise
      (fun a b => to_uint (encode_uint_float a) ≤ to_uint (encode_uint_float b))) :
    stable_radix_sort_key_dev_float32 keys = keys := by
  rw [float32_sorter_eq]
  exact sort_through_of_sorted _ _ keys (fun k hk => float32_round_trip (hkeys k hk)) hsorted

theorem float32_twice (keys : List Nat) (hkeys : ∀ k ∈ keys, k < 2 ^ 32) :
    stable_radix_sort_key_dev_float32 (stable_radix_sort_key_dev_float32 keys) =
      stable_radix_sort_key_dev_float32 keys := by
  rw [float32_sorter_eq, float32_sorter_eq]
  exact sort_through_twice _ _ keys (fun k hk => float32_round_trip (hkeys k hk))

/-- The encoded order of 32-bit float patterns refines the order of their values. -/
theorem float32_order_key_le {a b : Nat} (ha : a < 2 ^ 32) (hb : b < 2 ^ 32)
    (h : to_uint (encode_uint_float a) ≤ to_uint (encode_uint_float b)) :
    float32_order_key a ≤ float32_order_key b := by
  rw [float32_encode ha, float32_encode hb] at h
  unfold float32_order_key
  split at h <;> split at h <;> rename_i h1 h2 <;> simp only [h1, h2, if_true, if_false] <;>
    omega

theorem float32_values_of_sorted (keys : List Nat) (hkeys : ∀ k ∈ keys, k < 2 ^ 32)
    (hsorted : keys.Pairwise (fun a b => float32_order_key a ≤ float32_order_key b)) :
    (stable_radix_sort_key_dev_float32 keys).map float32_order_key =
      keys.map float32_order_key := by
  have hinv : ∀ k ∈ keys, to_uint (decode_uint_float (to_uint (encode_uint_float k))) = k :=
    fun k hk => float32_round_trip (hkeys k hk)
  have hperm : (stable_radix_sort_key_dev_float32 keys).Perm keys := by
    rw [float32_sorter_eq]
    exact sort_through_perm _ _ keys hinv
  refine map_eq_of_perm_of_pairwise float32_order_key hperm ?_ hsorted
  have henc := sort_through_pairwise_encode (fun k => to_uint (encode_uint_float k))
    (fun u => to_uint (decode_uint_float u)) keys hinv
  rw [← float32_sorter_eq] at henc
  refine henc.imp_of_mem ?_
  intro a b ha hb hab
  exact float32_order_key_le (hkeys a (hperm.subset ha)) (hkeys b (hperm.subset hb)) hab

theorem small_dev_round_trip {KeyType : Type} {encode_uint : KeyType → Nat}
    {decode_uint : Nat → KeyType} {k : KeyType} (hrange : encode_uint k < UINT_RANGE)
    (hinv : decode_uint (encode_uint k) = k) :
    decode_uint (to_uint (encode_uint_unsigned
      (to_uint (encode_uint_unsigned (to_uint (encode_uint k)))))) = k := by
  rw [small_dev_encode hrange]
  unfold encode_uint_unsigned
  rw [to_uint_of_lt hrange, hinv]

theorem small_dev_of_sorted {KeyType : Type} [LinearOrder KeyType]
    (encode_uint : KeyType → Nat) (decode_uint : Nat → KeyType) (keys : List KeyType)
    (hrange : ∀ k, encode_uint k < UINT_RANGE)
    (hinv : ∀ k, decode_uint (encode_uint k) = k)
    (hmono : ∀ a b, a < b → encode_uint a < encode_uint b)
    (hsorted : keys.Pairwise (fun a b => a ≤ b)) :
    stable_radix_sort_key_small_dev encode_uint decode_uint keys = keys := by
  rw [small_dev_eq]
  refine sort_through_of_sorted _ _ keys
    (fun k _ => small_dev_round_trip (hrange k) (hinv k)) ?_
  refine hsorted.imp ?_
  intro a b hab
  rw [small_dev_encode (hrange a), small_dev_encode (hrange b)]
  rcases lt_or_eq_of_le hab with hlt | heq
  · exact le_of_lt (hmono a b hlt)
  · rw [heq]

theorem small_dev_twice {KeyType : Type} (encode_uint : KeyType → Nat)
    (decode_uint : Nat → KeyType) (keys : List KeyType)
    (hrange : ∀ k, encode_uint k < UINT_RANGE)
    (hinv : ∀ k, decode_uint (encode_uint k) = k) :
    stable_radix_sort_key_small_dev encode_uint decode_uint
        (stable_radix_sort_key_small_dev encode_uint decode_uint keys) =
      stable_radix_sort_key_small_dev encode_uint decode_uint keys := by
  rw [small_dev_eq, small_dev_eq]
  exact sort_through_twice _ _ keys (fun k _ => small_dev_round_trip (hrange k) (hinv k))

theorem isStableSortBy_self {α β : Type} [LinearOrder β] {key : α → β} {l : List α}
    (h : l.Pairwise (fun a b => key a ≤ key b)) : IsStableSortBy key l l :=
  ⟨h, fun _ => rfl⟩

/-- The two-pass sorter returns unchanged an array that ascends in (upper bits, lower bits),
whatever the order of keys that agree in both. -/
theorem large_dev_of_sorted {KeyType : Type} (sort_key_value : BitsType → KeyValueSort)
    (LowerBits UpperBits : BitsType) (extract_lower_bits extract_upper_bits : KeyType → Nat)
    (keys : List KeyType)
    (hlower : StableKeyValueSort LowerBits (sort_key_value LowerBits))
    (hupper : StableKeyValueSort UpperBits (sort_key_value UpperBits))
    (hn : keys.length ≤ UINT_RANGE)
    (hsorted : keys.Pairwise (fun a b =>
      full_key LowerBits UpperBits extract_lower_bits extract_upper_bits a ≤
        full_key LowerBits UpperBits extract_lower_bits extract_upper_bits b)) :
    ∃ b : LargeDevBuffers KeyType,
      stable_radix_sort_key_large_dev sort_key_value LowerBits UpperBits
          extract_lower_bits extract_upper_bits keys = some b ∧
        b.keys = keys := by
  obtain ⟨b, hb, _, hst⟩ := large_dev_keys sort_key_value LowerBits UpperBits
    extract_lower_bits extract_upper_bits keys hlower hupper hn
  exact ⟨b, hb, hst.unique (isStableSortBy_self hsorted)⟩

theorem large_dev_twice {KeyType : Type} (sort_key_value : BitsType → KeyValueSort)
    (LowerBits UpperBits : BitsType) (extract_lower_bits extract_upper_bits : KeyType → Nat)
    (keys : List KeyType)
    (hlower : StableKeyValueSort LowerBits (sort_key_value LowerBits))
    (hupper : StableKeyValueSort UpperBits (sort_key_value UpperBits))
    (hn : keys.length ≤ UINT_RANGE) :
    ∃ b b' : LargeDevBuffers KeyType,
      stable_radix_sort_key_large_dev sort_key_value LowerBits UpperBits
          extract_lower_bits extract_upper_bits keys = some b ∧
        stable_radix_sort_key_large_dev sort_key_value LowerBits UpperBits
          extract_lower_bits extract_upper_bits b.keys = some b' ∧
        b'.keys = b.keys := by
  obtain ⟨b, hb, hperm, hst⟩ := large_dev_keys sort_key_value LowerBits UpperBits
    extract_lower_bits extract_upper_bits keys hlower hupper hn
  obtain ⟨b', hb', heq⟩ := large_dev_of_sorted sort_key_value LowerBits UpperBits
    extract_lower_bits extract_upper_bits b.keys hlower hupper
    (by rw [hperm.length_eq]; exact hn) hst.1
  exact ⟨b, b', hb, hb', heq⟩

theorem uint64_of_sorted (sort_key_value : BitsType → KeyValueSort) (keys : List Nat)
    (hsort : StableKeyValueSort .unsigned_int (sort_key_value .unsigned_int))
    (hkeys : ∀ k ∈ keys, k < 2 ^ 64) (hn : keys.length ≤ UINT_RANGE)
    (hsorted : keys.Pairwise (fun a b => a ≤ b)) :
    stable_radix_sort_key_dev_uint64 sort_key_value keys = some keys := by
  obtain ⟨b, hb, heq⟩ := large_dev_of_sorted sort_key_value .unsigned_int .unsigned_int
    lower_32_bits_uint64 upper_32_bits_uint64 keys hsort hsort hn (by
      refine hsorted.imp_of_mem ?_
      intro x y hx hy hxy
      rw [full_key_uint64 (hkeys x hx), full_key_uint64 (hkeys y hy), Prod.Lex.le_iff]
      simp only [Nat.cast_lt, Nat.cast_le, Nat.cast_inj]
      omega)
  unfold stable_radix_sort_key_dev_uint64
  rw [hb, ← heq]
  rfl

theorem int64_of_sorted (sort_key_value : BitsType → KeyValueSort) (keys : List Int)
    (hlower : StableKeyValueSort .unsigned_int (sort_key_value .unsigned_int))
    (hupper : StableKeyValueSort .int (sort_key_value .int))
    (hkeys : ∀ k ∈ keys, -2 ^ 63 ≤ k ∧ k < 2 ^ 63) (hn : keys.length ≤ UINT_RANGE)
    (hsorted : keys.Pairwise (fun a b => a ≤ b)) :
    stable_radix_sort_key_dev_int64 sort_key_value keys = some keys := by
  obtain ⟨b, hb, heq⟩ := large_dev_of_sorted sort_key_value .unsigned_int .int
    lower_32_bits_int64 upper_32_bits_int64 keys hlower hupper hn (by
      refine hsorted.imp_of_mem ?_
      intro x y hx hy hxy
      rw [full_key_int64 (hkeys x hx).1 (hkeys x hx).2,
        full_key_int64 (hkeys y hy).1 (hkeys y hy).2, Prod.Lex.le_iff]
      simp only
      omega)
  unfold stable_radix_sort_key_dev_int64
  rw [hb, ← heq]
  rfl

/-! ### 64-bit floats -/

theorem encode_float64_eq {k : Nat} (h : k < 2 ^ 64) :
    encode_float64 k = if k < 2 ^ 63 then k + 2 ^ 63 else 2 ^ 64 - 1 - k := by
  unfold encode_float64
  have e1 : (0x8000000000000000 : Nat) = 2 ^ 63 := by norm_num
  have e2 : (0xFFFFFFFFFFFFFFFF : Nat) = 2 ^ 64 - 1 := by norm_num
  rw [e1, e2]
  by_cases hk : k < 2 ^ 63
  · rw [if_pos hk, if_pos hk, xor_two_pow_of_lt 63 hk]
  · rw [if_neg hk, if_neg hk, xor_two_pow_sub_one 64 h]

theorem encode_float64_lt {k : Nat} (h : k < 2 ^ 64) : encode_float64 k < 2 ^ 64 := by
  rw [encode_float64_eq h]
  split <;> omega

theorem full_key_float64 {k : Nat} (hk : k < 2 ^ 64) :
    full_key .unsigned_int .unsigned_int lower_32_bits_float64 upper_32_bits_float64 k =
      toLex (((encode_float64 k / 2 ^ 32 : Nat) : Int),
        ((encode_float64 k % 2 ^ 32 : Nat) : Int)) := by
  have hlt := encode_float64_lt hk
  have h1 : to_uint (encode_float64 k % 2 ^ 32) = encode_float64 k % 2 ^ 32 :=
    to_uint_of_lt (Nat.mod_lt _ (by norm_num))
  have h2 : to_uint (encode_float64 k / 2 ^ 32) = encode_float64 k / 2 ^ 32 := by
    apply to_uint_of_lt
    unfold UINT_RANGE
    omega
  simp only [full_key, pass_key, lower_32_bits_float64, upper_32_bits_float64, h1, h2,
    BitsType.value]

/-- The order of the float64 path is the order of the encoded 64-bit patterns. -/
theorem full_key_float64_le_iff {a b : Nat} (ha : a < 2 ^ 64) (hb : b < 2 ^ 64) :
    full_key .unsigned_int .unsigned_int lower_32_bits_float64 upper_32_bits_float64 a ≤
        full_key .unsigned_int .unsigned_int lower_32_bits_float64 upper_32_bits_float64 b ↔
      encode_float64 a ≤ encode_float64 b := by
  rw [full_key_float64 ha, full_key_float64 hb, Prod.Lex.le_iff]
  simp only [Nat.cast_lt, Nat.cast_le, Nat.cast_inj]
  omega

/-- The encoded order of 64-bit float patterns refines the order of their values. -/
theorem float64_order_key_le {a b : Nat} (ha : a < 2 ^ 64) (hb : b < 2 ^ 64)
    (h : encode_float64 a ≤ encode_float64 b) :
    float64_order_key a ≤ float64_order_key b := by
  rw [encode_float64_eq ha, encode_float64_eq hb] at h
  unfold float64_order_key
  split at h <;> split at h <;> rename_i h1 h2 <;> simp only [h1, h2, if_true, if_false] <;>
    omega

theorem float64_of_sorted_encoded (sort_key_value : BitsType → KeyValueSort) (keys : List Nat)
    (hsort : StableKeyValueSort .unsigned_int (sort_key_value .unsigned_int))
    (hkeys : ∀ k ∈ keys, k < 2 ^ 64) (hn : keys.length ≤ UINT_RANGE)
    (hsorted : keys.Pairwise (fun a b => encode_float64 a ≤ encode_float64 b)) :
    stable_radix_sort_key_dev_float64 sort_key_value keys = some keys := by
  obtain ⟨b, hb, heq⟩ := large_dev_of_sorted sort_key_value .unsigned_int .unsigned_int
    lower_32_bits_float64 upper_32_bits_float64 keys hsort hsort hn (by
      refine hsorted.imp_of_mem ?_
      intro x y hx hy hxy
      exact (full_key_float64_le_iff (hkeys x hx) (hkeys y hy)).mpr hxy)
  unfold stable_radix_sort_key_dev_float64
  rw [hb, ← heq]
  rfl

theorem float64_values_of_sorted (sort_key_value : BitsType → KeyValueSort) (keys : List Nat)
    (hsort : StableKeyValueSort .unsigned_int (sort_key_value .unsigned_int))
    (hkeys : ∀ k ∈ keys, k < 2 ^ 64) (hn : keys.length ≤ UINT_RANGE)
    (hsorted : keys.Pairwise (fun a b => float64_order_key a ≤ float64_order_key b)) :
    ∃ output, stable_radix_sort_key_dev_float64 sort_key_value keys = some output ∧
      output.map float64_order_key = keys.map float64_order_key := by
  obtain ⟨b, hb, hperm, hst⟩ := large_dev_keys sort_key_value .unsigned_int .unsigned_int
    lower_32_bits_float64 upper_32_bits_float64 keys hsort hsort hn
  refine ⟨b.keys, ?_, map_eq_of_perm_of_pairwise float64_order_key hperm ?_ hsorted⟩
  · unfold stable_radix_sort_key_dev_float64
    rw [hb]
    rfl
  · refine hst.1.imp_of_mem ?_
    intro x y hx hy hxy
    have hx' := hkeys x (hperm.subset hx)
    have hy' := hkeys y (hperm.subset hy)
    exact float64_order_key_le hx' hy' ((full_key_float64_le_iff hx' hy').mp hxy)

/-- Counterexample to C9 as stated: the float arrays `[+0.0, -0.0]`, of 32 and of 64 bits,
are in ascending order of value, since both keys have the value zero, and the sort returns
`[-0.0, +0.0]`, another array. -/
theorem float_zeros_reordered :
    ([0, 0x80000000] : List Nat).Pairwise
        (fun a b => float32_order_key a ≤ float32_order_key b) ∧
      stable_radix_sort_key_dev_float32 [0, 0x80000000] = [0x80000000, 0] ∧
      stable_radix_sort_key_dev_float32 [0, 0x80000000] ≠ [0, 0x80000000] ∧
      ([0, 0x8000000000000000] : List Nat).Pairwise
        (fun a b => float64_order_key a ≤ float64_order_key b) ∧
      stable_radix_sort_key_dev_float64 stable_radix_sort_key_value_dev
        [0, 0x8000000000000000] = some [0x8000000000000000, 0] ∧
      stable_radix_sort_key_dev_float64 stable_radix_sort_key_value_dev
        [0, 0x8000000000000000] ≠ some [0, 0x8000000000000000] := by
  refine ⟨by decide, by decide, by decide, by decide, by decide, by decide⟩

/-- C9, amended. Idempotence: on every integer path, the small-key adapter, the unsigned and
signed 32-bit sorters and the unsigned and signed 64-bit sorters (and on the two-pass sorter
for any extractors, in the order of its pass keys), a key array that is already in ascending
order comes back unchanged. A float key is its bit pattern: a float array ascending in the
sorter's own total order, which is the order of the values with `-0.0` before `+0.0`, comes
back unchanged, and a float array ascending by value comes back with a key of the same value
at every position. On every path, sorting the output of a sort again yields the same
array. -/
theorem sort_idempotent :
    (∀ (KeyType : Type) [LinearOrder KeyType] (encode_uint : KeyType → Nat)
        (decode_uint : Nat → KeyType) (keys : List KeyType),
        (∀ k, encode_uint k < UINT_RANGE) → (∀ k, decode_uint (encode_uint k) = k) →
        (∀ a b, a < b → encode_uint a < encode_uint b) →
          (keys.Pairwise (fun a b => a ≤ b) →
            stable_radix_sort_key_small_dev encode_uint decode_uint keys = keys) ∧
          stable_radix_sort_key_small_dev encode_uint decode_uint
              (stable_radix_sort_key_small_dev encode_uint decode_uint keys) =
            stable_radix_sort_key_small_dev encode_uint decode_uint keys) ∧
      (∀ keys : List Nat, (∀ k ∈ keys, k < 2 ^ 32) →
          (keys.Pairwise (fun a b => a ≤ b) → stable_radix_sort_key_dev_uint32 keys = keys) ∧
          stable_radix_sort_key_dev_uint32 (stable_radix_sort_key_dev_uint32 keys) =
            stable_radix_sort_key_dev_uint32 keys) ∧
      (∀ keys : List Int, (∀ k ∈ keys, -2 ^ 31 ≤ k ∧ k < 2 ^ 31) →
          (keys.Pairwise (fun a b => a ≤ b) → stable_radix_sort_key_dev_int32 keys = keys) ∧
          stable_radix_sort_key_dev_int32 (stable_radix_sort_key_dev_int32 keys) =
            stable_radix_sort_key_dev_int32 keys) ∧
      (∀ keys : List Nat, (∀ k ∈ keys, k < 2 ^ 32) →
          (keys.Pairwise
              (fun a b => to_uint (encode_uint_float a) ≤ to_uint (encode_uint_float b)) →
            stable_radix_sort_key_dev_float32 keys = keys) ∧
          (keys.Pairwise (fun a b => float32_order_key a ≤ float32_order_key b) →
            (stable_radix_sort_key_dev_float32 keys).map float32_order_key =
              keys.map float32_order_key) ∧
          stable_radix_sort_key_dev_float32 (stable_radix_sort_key_dev_float32 keys) =
            stable_radix_sort_key_dev_float32 keys) ∧
      (∀ (KeyType : Type) (sort_key_value : BitsType → KeyValueSort)
          (LowerBits UpperBits : BitsType)
          (extract_lower_bits extract_upper_bits : KeyType → Nat) (keys : List KeyType),
        StableKeyValueSort LowerBits (sort_key_value LowerBits) →
        StableKeyValueSort UpperBits (sort_key_value UpperBits) →
        keys.length ≤ UINT_RANGE →
          (keys.Pairwise (fun a b =>
              full_key LowerBits UpperBits extract_lower_bits extract_upper_bits a ≤
                full_key LowerBits UpperBits extract_lower_bits extract_upper_bits b) →
            ∃ b, stable_radix_sort_key_large_dev sort_key_value LowerBits UpperBits
                extract_lower_bits extract_upper_bits keys = some b ∧ b.keys = keys) ∧
          ∃ b b', stable_radix_sort_key_large_dev sort_key_value LowerBits UpperBits
                extract_lower_bits extract_upper_bits keys = some b ∧
              stable_radix_sort_key_large_dev sort_key_value LowerBits UpperBits
                extract_lower_bits extract_upper_bits b.keys = some b' ∧
              b'.keys = b.keys) ∧
      (∀ (sort_key_value : BitsType → KeyValueSort) (keys : List Nat),
        StableKeyValueSort .unsigned_int (sort_key_value .unsigned_int) →
        (∀ k ∈ keys, k < 2 ^ 64) → keys.length ≤ UINT_RANGE →
          (keys.Pairwise (fun a b => a ≤ b) →
            stable_radix_sort_key_dev_uint64 sort_key_value keys = some keys) ∧
          (keys.Pairwise (fun a b => encode_float64 a ≤ encode_float64 b) →
            stable_radix_sort_key_dev_float64 sort_key_value keys = some keys) ∧
          (keys.Pairwise (fun a b => float64_order_key a ≤ float64_order_key b) →
            ∃ output, stable_radix_sort_key_dev_float64 sort_key_value keys = some output ∧
              output.map float64_order_key = keys.map float64_order_key)) ∧
      (∀ (sort_key_value : BitsType → KeyValueSort) (keys : List Int),
        StableKeyValueSort .unsigned_int (sort_key_value .unsigned_int) →
        StableKeyValueSort .int (sort_key_value .int) →
        (∀ k ∈ keys, -2 ^ 63 ≤ k ∧ k < 2 ^ 63) → keys.length ≤ UINT_RANGE →
        keys.Pairwise (fun a b => a ≤ b) →
          stable_radix_sort_key_dev_int64 sort_key_value keys = some keys) := by
  refine ⟨?_, ?_, ?_, ?_, ?_, ?_, ?_⟩
  · intro KeyType _ encode_uint decode_uint keys hrange hinv hmono
    exact ⟨small_dev_of_sorted encode_uint decode_uint keys hrange hinv hmono,
      small_dev_twice encode_uint decode_uint keys hrange hinv⟩
  · intro keys hkeys
    exact ⟨uint32_of_sorted keys hkeys, uint32_twice keys hkeys⟩
  · intro keys hkeys
    exact ⟨int32_of_sorted keys hkeys, int32_twice keys hkeys⟩
  · intro keys hkeys
    exact ⟨float32_of_sorted_encoded keys hkeys, float32_values_of_sorted keys hkeys,
      float32_twice keys hkeys⟩
  · intro KeyType sort_key_value LowerBits UpperBits extract_lower_bits extract_upper_bits keys
      hlower hupper hn
    exact ⟨large_dev_of_sorted sort_key_value LowerBits UpperBits extract_lower_bits
        extract_upper_bits keys hlower hupper hn,
      large_dev_twice sort_key_value LowerBits UpperBits extract_lower_bits
        extract_upper_bits keys hlower hupper hn⟩
  · intro sort_key_value keys hsort hkeys hn
    exact ⟨uint64_of_sorted sort_key_value keys hsort hkeys hn,
      float64_of_sorted_encoded sort_key_value keys hsort hkeys hn,
      float64_values_of_sorted sort_key_value keys hsort hkeys hn⟩
  · intro sort_key_value keys hlower hupper hkeys hn
    exact int64_of_sorted sort_key_value keys hlower hupper hkeys hn

/-- Witness for C9: sorted arrays on the signed 32-bit, float 32-bit and signed 64-bit
paths, the last with the modelled primitive. `[0x80000000, 0]` is `[-0.0, +0.0]`. -/
theorem sort_idempotent_witness :
    stable_radix_sort_key_dev_int32 [-7, -7, 0, 3] = [-7, -7, 0, 3] ∧
      stable_radix_sort_key_dev_float32 [0xBF800000, 0x80000000, 0, 0x3F800000] =
        [0xBF800000, 0x80000000, 0, 0x3F800000] ∧
      (stable_radix_sort_key_dev_float32 [0, 0x80000000]).map float32_order_key =
        [0, 0x80000000].map float32_order_key ∧
      stable_radix_sort_key_dev_int64 stable_radix_sort_key_value_dev
        [-2 ^ 63, -5, 2 ^ 32, 2 ^ 32, 2 ^ 40] = some [-2 ^ 63, -5, 2 ^ 32, 2 ^ 32, 2 ^ 40] :=
  ⟨(sort_idempotent.2.2.1 [-7, -7, 0, 3] (by decide)).1 (by decide),
    (sort_idempotent.2.2.2.1 [0xBF800000, 0x80000000, 0, 0x3F800000] (by decide)).1
      (by decide),
    (sort_idempotent.2.2.2.1 [0, 0x80000000] (by decide)).2.1 (by decide),
    sort_idempotent.2.2.2.2.2.2 stable_radix_sort_key_value_dev
      [-2 ^ 63, -5, 2 ^ 32, 2 ^ 32, 2 ^ 40] (stable_radix_sort_key_value_dev_stable _)
      (stable_radix_sort_key_value_dev_stable _) (by decide) (by decide) (by decide)⟩

/-- Witness for C10: one key on the signed 32-bit path, the float 32-bit path and the
two-pass sorter run with the modelled primitive. -/
theorem boundary_sizes_witness :
    stable_radix_sort_key_dev_int32 [-5] = [-5] ∧
      stable_radix_sort_key_dev_float32 [0x80000000] = [0x80000000] ∧
      ∃ b, stable_radix_sort_key_large_dev stable_radix_sort_key_value_dev .unsigned_int .int
          lower_32_bits_int64 upper_32_bits_int64 [-7] = some b ∧ b.keys = [-7] :=
  ⟨boundary_sizes.2.2.1.2 (-5) (by decide) (by decide),
    boundary_sizes.2.2.2.1.2 0x80000000 (by decide),
    (boundary_sizes.2.2.2.2 Int stable_radix_sort_key_value_dev .unsigned_int .int
      lower_32_bits_int64 upper_32_bits_int64 (stable_radix_sort_key_value_dev_permutes _)
      (stable_radix_sort_key_value_dev_permutes _)).2 (-7)⟩

/-! ## The signed-integer encoding -/

theorem encode_uint_int_lt {x : Nat} (h : x < 2 ^ 32) : encode_uint_int x < 2 ^ 32 :=
  Nat.xor_lt_two_pow h (by norm_num)

theorem reinterpret_as_uint_lt (k : Int) : reinterpret_as_uint k < 2 ^ 32 := by
  unfold reinterpret_as_uint
  omega

/-- The encoded pattern of an `int` is its value shifted up by `2 ^ 31`. -/
theorem encode_uint_int_reinterpret {k : Int} (h1 : -2 ^ 31 ≤ k) (h2 : k < 2 ^ 31) :
    encode_uint_int (reinterpret_as_uint k) = (k + 2 ^ 31).toNat := by
  have h := int32_encode h1 h2
  rwa [to_uint_of_lt (encode_uint_int_lt (reinterpret_as_uint_lt k))] at h

/-- C11. The signed-integer encoding `encode(v) = v XOR 0x80000000` is strictly
order-preserving: for signed 32-bit integers `a < b`, `encode(a) < encode(b)` as unsigned
32-bit integers. -/
theorem encode_uint_int_strict_mono (a b : Int) (ha : -2 ^ 31 ≤ a ∧ a < 2 ^ 31)
    (hb : -2 ^ 31 ≤ b ∧ b < 2 ^ 31) (hab : a < b) :
    encode_uint_int (reinterpret_as_uint a) = reinterpret_as_uint a ^^^ 0x80000000 ∧
      encode_uint_int (reinterpret_as_uint b) = reinterpret_as_uint b ^^^ 0x80000000 ∧
      encode_uint_int (reinterpret_as_uint b) < 2 ^ 32 ∧
      encode_uint_int (reinterpret_as_uint a) < encode_uint_int (reinterpret_as_uint b) := by
  refine ⟨rfl, rfl, encode_uint_int_lt (reinterpret_as_uint_lt b), ?_⟩
  rw [encode_uint_int_reinterpret ha.1 ha.2, encode_uint_int_reinterpret hb.1 hb.2]
  omega

/-- Witness for C11: `-1 < 0` encode to `0x7FFFFFFF < 0x80000000`, and `INT_MIN` to 0. -/
theorem encode_uint_int_strict_mono_witness :
    encode_uint_int (reinterpret_as_uint (-1)) = 0x7FFFFFFF ∧
      encode_uint_int (reinterpret_as_uint 0) = 0x80000000 ∧
      encode_uint_int (reinterpret_as_uint (-2 ^ 31)) = 0 ∧
      (encode_uint_int (reinterpret_as_uint (-1)) = reinterpret_as_uint (-1) ^^^ 0x80000000 ∧
        encode_uint_int (reinterpret_as_uint 0) = reinterpret_as_uint 0 ^^^ 0x80000000 ∧
        encode_uint_int (reinterpret_as_uint 0) < 2 ^ 32 ∧
        encode_uint_int (reinterpret_as_uint (-1)) < encode_uint_int (reinterpret_as_uint 0)) :=
  ⟨by decide, by decide, by decide,
    encode_uint_int_strict_mono (-1) 0 (by decide) (by decide) (by decide)⟩

/-! ## Encoders and decoders are inverse -/

theorem encode_uint_int_eq_signed (x : Nat) : encode_uint_int x = encode_uint_signed 32 x :=
  rfl

theorem decode_uint_int_eq_signed (x : Nat) : decode_uint_int x = decode_uint_signed 32 x :=
  rfl

theorem decode_encode_signed (bits x : Nat) :
    decode_uint_signed bits (encode_uint_signed bits x) = x := by
  unfold decode_uint_signed encode_uint_signed
  exact Nat.xor_cancel_right _ _

theorem encode_decode_signed (bits x : Nat) :
    encode_uint_signed bits (decode_uint_signed bits x) = x := by
  unfold decode_uint_signed encode_uint_signed
  exact Nat.xor_cancel_right _ _

theorem encode_uint_signed_lt {bits x : Nat} (hbits : 0 < bits) (h : x < 2 ^ bits) :
    encode_uint_signed bits x < 2 ^ bits := by
  unfold encode_uint_signed
  exact Nat.xor_lt_two_pow h (Nat.pow_lt_pow_right (by norm_num) (by omega))

theorem int_value_reinterpret {k : Int} (h1 : -2 ^ 31 ≤ k) (h2 : k < 2 ^ 31) :
    BitsType.int.value (reinterpret_as_uint k) = k := by
  rw [int_value_eq]
  unfold reinterpret_as_uint
  split <;> omega

/-- The branch of line 123 as an encode, sort, decode pipeline on the `int` values. -/
theorem int32_full_branch_eq (keys : List Int) :
    (radix_sort (keys.map reinterpret_as_uint) encode_uint_int decode_uint_int
        (some 32)).map BitsType.int.value =
      sort_through (fun k => to_uint (encode_uint_int (reinterpret_as_uint k)))
        (fun u => BitsType.int.value (to_uint (encode_uint_int u))) keys := by
  simp only [radix_sort, transform, sort_through, List.map_map]
  rfl

/-- C12. For integer key types the encoder and decoder are exact inverses, in both
directions: the identity pair of the unsigned types and the sign-bit flip of the signed
types of 8, 16 and 32 bits (which keeps a pattern inside its width). Hence the encode, sort,
decode pipelines, the small-key adapter and the negative branch of the signed 32-bit sorter,
return only values that were present in the input. -/
theorem encode_decode_inverse :
    (∀ x, decode_uint_unsigned (encode_uint_unsigned x) = x ∧
        encode_uint_unsigned (decode_uint_unsigned x) = x) ∧
      (∀ bits x, decode_uint_signed bits (encode_uint_signed bits x) = x ∧
        encode_uint_signed bits (decode_uint_signed bits x) = x) ∧
      (∀ bits x, 0 < bits → x < 2 ^ bits → encode_uint_signed bits x < 2 ^ bits) ∧
      (∀ x, decode_uint_int (encode_uint_int x) = x ∧
        encode_uint_int (decode_uint_int x) = x) ∧
      (∀ k : Int, -2 ^ 31 ≤ k → k < 2 ^ 31 →
        BitsType.int.value (decode_uint_int (encode_uint_int (reinterpret_as_uint k))) = k) ∧
      (∀ (KeyType : Type) (encode_uint : KeyType → Nat) (decode_uint : Nat → KeyType)
          (keys : List KeyType),
        (∀ k ∈ keys, encode_uint k < UINT_RANGE ∧ decode_uint (encode_uint k) = k) →
          ∀ x ∈ stable_radix_sort_key_small_dev encode_uint decode_uint keys, x ∈ keys) ∧
      (∀ keys : List Int, (∀ k ∈ keys, -2 ^ 31 ≤ k ∧ k < 2 ^ 31) →
        ∀ x ∈ (radix_sort (keys.map reinterpret_as_uint) encode_uint_int decode_uint_int
            (some 32)).map BitsType.int.value,
          x ∈ keys) := by
  refine ⟨fun _ => ⟨rfl, rfl⟩, fun bits x => ⟨decode_encode_signed bits x,
    encode_decode_signed bits x⟩, fun bits x hbits h => encode_uint_signed_lt hbits h,
    fun x => ⟨decode_encode_signed 32 x, encode_decode_signed 32 x⟩, ?_, ?_, ?_⟩
  · intro k h1 h2
    rw [decode_uint_int_eq_signed, encode_uint_int_eq_signed, decode_encode_signed]
    exact int_value_reinterpret h1 h2
  · intro KeyType encode_uint decode_uint keys hkeys x hx
    rw [small_dev_eq] at hx
    exact (sort_through_perm
      (fun k => to_uint (encode_uint_unsigned (to_uint (encode_uint k))))
      (fun u => decode_uint (to_uint (encode_uint_unsigned u))) keys
      (fun k hk => small_dev_round_trip (hkeys k hk).1 (hkeys k hk).2)).subset hx
  · intro keys hkeys x hx
    rw [int32_full_branch_eq] at hx
    exact (sort_through_perm
      (fun k => to_uint (encode_uint_int (reinterpret_as_uint k)))
      (fun u => BitsType.int.value (to_uint (encode_uint_int u))) keys
      (fun k hk => int32_round_trip (hkeys k hk).1 (hkeys k hk).2)).subset hx

/-- Witness for C12: `signed char` keys through the small-key adapter with the 8-bit
sign-bit flip, and the negative branch of the signed 32-bit sorter. -/
theorem encode_decode_inverse_witness :
    stable_radix_sort_key_small_dev
        (fun k : Int => encode_uint_signed 8 (k % 256).toNat)
        (fun u => if decode_uint_signed 8 u < 128 then (decode_uint_signed 8 u : Int)
          else (decode_uint_signed 8 u : Int) - 256)
        [-3, 5, -128, 127] = [-128, -3, 5, 127] ∧
      (∀ x ∈ stable_radix_sort_key_small_dev
          (fun k : Int => encode_uint_signed 8 (k % 256).toNat)
          (fun u => if decode_uint_signed 8 u < 128 then (decode_uint_signed 8 u : Int)
            else (decode_uint_signed 8 u : Int) - 256)
          [-3, 5, -128, 127], x ∈ [-3, 5, -128, 127]) ∧
      (∀ x ∈ (radix_sort (([-7, 2, -7] : List Int).map reinterpret_as_uint) encode_uint_int
          decode_uint_int (some 32)).map BitsType.int.value, x ∈ ([-7, 2, -7] : List Int)) :=
  ⟨by decide,
    encode_decode_inverse.2.2.2.2.2.1 Int
      (fun k : Int => encode_uint_signed 8 (k % 256).toNat)
      (fun u => if decode_uint_signed 8 u < 128 then (decode_uint_signed 8 u : Int)
        else (decode_uint_signed 8 u : Int) - 256)
      [-3, 5, -128, 127] (by decide),
    encode_decode_inverse.2.2.2.2.2.2 [-7, 2, -7] (by decide)⟩

/-! ## The unsigned shortcut of the signed 32-bit sorter -/

theorem to_uint_encode_uint_int {u : Nat} (h : u < 2 ^ 32) :
    to_uint (encode_uint_int u) = if u < 2 ^ 31 then u + 2 ^ 31 else u - 2 ^ 31 := by
  unfold encode_uint_int to_uint UINT_RANGE
  by_cases hu : u < 2 ^ 31
  · rw [if_pos hu, xor_sign_of_lt hu]
    omega
  · rw [if_neg hu, xor_sign_of_ge (by omega) h]
    omega

theorem encode_uint_int_twice {u : Nat} (h : u < 2 ^ 32) :
    to_uint (encode_uint_int (to_uint (encode_uint_int u))) = u := by
  rw [to_uint_encode_uint_int h]
  by_cases hu : u < 2 ^ 31
  · rw [if_pos hu, to_uint_encode_uint_int (by omega), if_neg (by omega)]
    omega
  · rw [if_neg hu, to_uint_encode_uint_int (by omega), if_pos (by omega)]
    omega

/-- On patterns with a clear sign bit, encoding before and after the sort gives what the
unsigned sorter gives. -/
theorem radix_sort_encode_encode_eq_uint32 (bits : List Nat) (hbits : ∀ u ∈ bits, u < 2 ^ 31) :
    radix_sort bits encode_uint_int encode_uint_int none =
      stable_radix_sort_key_dev_uint32 bits := by
  have hlt : ∀ u ∈ bits, u < 2 ^ 32 := fun u hu => lt_trans (hbits u hu) (by norm_num)
  have hinvA : ∀ u ∈ bits, to_uint (encode_uint_int (to_uint (encode_uint_int u))) = u :=
    fun u hu => encode_uint_int_twice (hlt u hu)
  have hinvB : ∀ u ∈ bits,
      to_uint (encode_uint_unsigned (to_uint (encode_uint_unsigned u))) = u :=
    fun u hu => uint32_round_trip (hlt u hu)
  have hpermA := sort_through_perm (fun k => to_uint (encode_uint_int k))
    (fun k => to_uint (encode_uint_int k)) bits hinvA
  have hpermB := sort_through_perm (fun k => to_uint (encode_uint_unsigned k))
    (fun k => to_uint (encode_uint_unsigned k)) bits hinvB
  have hsortA := sort_through_sorted (fun k => to_uint (encode_uint_int k))
    (fun k => to_uint (encode_uint_int k)) bits hinvA (by
      intro a ha b hb hab
      change to_uint (encode_uint_int a) ≤ to_uint (encode_uint_int b) at hab
      rw [to_uint_encode_uint_int (hlt a ha), to_uint_encode_uint_int (hlt b hb),
        if_pos (hbits a ha), if_pos (hbits b hb)] at hab
      omega)
  have hsortB := sort_through_sorted (fun k => to_uint (encode_uint_unsigned k))
    (fun k => to_uint (encode_uint_unsigned k)) bits hinvB (by
      intro a ha b hb hab
      change to_uint a ≤ to_uint b at hab
      rwa [to_uint_of_lt (hlt a ha), to_uint_of_lt (hlt b hb)] at hab)
  rw [radix_sort_eq, uint32_sorter_eq]
  exact List.eq_of_perm_of_sorted (r := fun a b : Nat => a ≤ b)
    (hpermA.trans hpermB.symm) hsortA hsortB

theorem reinterpret_as_uint_of_nonneg {k : Int} (h1 : 0 ≤ k) (h2 : k < 2 ^ 31) :
    reinterpret_as_uint k = k.toNat := by
  unfold reinterpret_as_uint
  omega

/-- C13. For every array of signed 32-bit integers whose keys are all non-negative, the
sorter takes the shortcut branch, and that branch, which hands `encode_uint<KeyType>` to
`radix_sort` both as pre-processing and as post-processing function, produces exactly what
the unsigned 32-bit sorter produces on the same bit patterns: the values come back
unmodified, in ascending order. -/
theorem int32_shortcut_eq_unsigned (keys : List Int) (hkeys : ∀ k ∈ keys, 0 ≤ k ∧ k < 2 ^ 31) :
    int32_branch (reduce keys 0 minimum) = .unsigned_shortcut ∧
      radix_sort (keys.map reinterpret_as_uint) encode_uint_int encode_uint_int none =
        stable_radix_sort_key_dev_uint32 (keys.map reinterpret_as_uint) ∧
      stable_radix_sort_key_dev_int32 keys =
        (stable_radix_sort_key_dev_uint32 (keys.map reinterpret_as_uint)).map
          BitsType.int.value ∧
      (stable_radix_sort_key_dev_int32 keys).Perm keys ∧
      (stable_radix_sort_key_dev_int32 keys).Pairwise (fun a b => a ≤ b) := by
  have hbranch : int32_branch (reduce keys 0 minimum) = .unsigned_shortcut := by
    unfold int32_branch
    rw [if_neg]
    rw [reduce_minimum_neg_iff]
    rintro (h | ⟨k, hk, hneg⟩)
    · exact absurd h (by decide)
    · exact absurd hneg (not_lt.mpr (hkeys k hk).1)
  have hbits : ∀ u ∈ keys.map reinterpret_as_uint, u < 2 ^ 31 := by
    intro u hu
    obtain ⟨k, hk, rfl⟩ := List.mem_map.mp hu
    rw [reinterpret_as_uint_of_nonneg (hkeys k hk).1 (hkeys k hk).2]
    have := (hkeys k hk).2
    omega
  have heq := radix_sort_encode_encode_eq_uint32 (keys.map reinterpret_as_uint) hbits
  have hrange : ∀ k ∈ keys, -2 ^ 31 ≤ k ∧ k < 2 ^ 31 := by
    intro k hk
    have := hkeys k hk
    omega
  obtain ⟨hperm, hsorted⟩ := int32_sorted_perm keys hrange
  refine ⟨hbranch, heq, ?_, hperm, hsorted⟩
  rw [← heq]
  simp only [stable_radix_sort_key_dev_int32, stable_radix_sort_key_dev_int32_with, hbranch]

/-- Witness for C13: four non-negative keys, `INT_MAX` among them. -/
theorem int32_shortcut_eq_unsigned_witness :
    stable_radix_sort_key_dev_uint32
        (([7, 0, 2147483647, 5] : List Int).map reinterpret_as_uint) =
        [0, 5, 7, 2147483647] ∧
      (int32_branch (reduce [7, 0, 2147483647, 5] 0 minimum) = .unsigned_shortcut ∧
        radix_sort (([7, 0, 2147483647, 5] : List Int).map reinterpret_as_uint)
            encode_uint_int encode_uint_int none =
          stable_radix_sort_key_dev_uint32
            (([7, 0, 2147483647, 5] : List Int).map reinterpret_as_uint) ∧
        stable_radix_sort_key_dev_int32 [7, 0, 2147483647, 5] =
          (stable_radix_sort_key_dev_uint32
            (([7, 0, 2147483647, 5] : List Int).map reinterpret_as_uint)).map
            BitsType.int.value ∧
        (stable_radix_sort_key_dev_int32 [7, 0, 2147483647, 5]).Perm [7, 0, 2147483647, 5] ∧
        (stable_radix_sort_key_dev_int32 [7, 0, 2147483647, 5]).Pairwise
          (fun a b => a ≤ b)) :=
  ⟨by decide, int32_shortcut_eq_unsigned [7, 0, 2147483647, 5] (by decide)⟩

/-! ## The index buffer -/

/-- A gather that returns has read, at every position, the input element its index names,
and that index lies inside the input. -/
theorem gather_getElem? {α : Type} (input : List α) :
    ∀ (map : List Nat) (out : List α), gather map input = some out →
      ∀ (i p : Nat), map[i]? = some p → p < input.length ∧ out[i]? = input[p]?
  | [], _, _, i, p, hp => by simp at hp
  | j :: rest, out, h, i, p, hp => by
    rw [gather] at h
    cases hx : input[j]? with
    | none => rw [hx] at h; exact Option.noConfusion h
    | some x =>
      cases hr : gather rest input with
      | none => rw [hx, hr] at h; exact Option.noConfusion h
      | some o =>
        rw [hx, hr] at h
        have hout := Option.some.inj h
        subst hout
        cases i with
        | zero =>
          have hjp : j = p := by simpa using hp
          subst hjp
          refine ⟨?_, by simpa using hx.symm⟩
          by_contra hge
          rw [List.getElem?_eq_none (not_lt.mp hge)] at hx
          exact Option.noConfusion hx
        | succ i' =>
          have hp' : rest[i']? = some p := by simpa using hp
          have := gather_getElem? input rest o hr i' p hp'
          exact ⟨this.1, by simpa using this.2⟩

/-- A gather returns exactly when every index lies inside the input. -/
theorem gather_isSome_iff {α : Type} (input : List α) (map : List Nat) :
    (gather map input).isSome ↔ ∀ i ∈ map, i < input.length := by
  constructor
  · intro h i hi
    obtain ⟨out, hout⟩ := Option.isSome_iff_exists.mp h
    obtain ⟨n, hn⟩ := List.getElem?_of_mem hi
    exact (gather_getElem? input map out hout n i hn).1
  · intro h
    rw [gather_eq_some input map h]
    rfl

/-- What the index buffer holds when the two-pass sorter returns: the indices of the second
pass, into the permuted keys; the original index is one more lookup away. -/
theorem large_dev_permutation_spec {KeyType : Type}
    (sort_key_value : BitsType → KeyValueSort) (LowerBits UpperBits : BitsType)
    (extract_lower_bits extract_upper_bits : KeyType → Nat) (keys : List KeyType)
    (b : LargeDevBuffers KeyType)
    (h : stable_radix_sort_key_large_dev sort_key_value LowerBits UpperBits
      extract_lower_bits extract_upper_bits keys = some b) :
    b.keys.length = b.permutation.length ∧
      (∀ (i p : Nat), b.permutation[i]? = some p →
        p < b.permuted_keys.length ∧ b.keys[i]? = b.permuted_keys[p]?) ∧
      (∀ (i p : Nat), b.permutation[i]? = some p →
        ∃ q, b.lower_permutation[p]? = some q ∧ q < keys.length ∧ b.keys[i]? = keys[q]?) := by
  obtain ⟨_, hg1, _, hg2⟩ := large_dev_buffers sort_key_value LowerBits UpperBits
    extract_lower_bits extract_upper_bits keys b h
  have hlen1 := gather_length _ _ _ hg1
  refine ⟨gather_length _ _ _ hg2, fun i p hp => gather_getElem? _ _ _ hg2 i p hp, ?_⟩
  intro i p hp
  obtain ⟨hlt, hout⟩ := gather_getElem? _ _ _ hg2 i p hp
  rw [hlen1] at hlt
  have hq : b.lower_permutation[p]? = some b.lower_permutation[p] :=
    List.getElem?_eq_getElem hlt
  obtain ⟨hq_lt, hperm⟩ := gather_getElem? _ _ _ hg1 p _ hq
  exact ⟨_, hq, hq_lt, hout.trans hperm⟩

/-- Counterexample to C14 as stated: on the keys `[1, 0]` the two-pass sorter returns
`[0, 1]` and leaves `[0, 1]` in the index buffer, so `permutation[0] = 0` although the key
at output position 0 is the original key at index 1. -/
theorem permutation_not_composed :
    ∃ b, stable_radix_sort_key_large_dev stable_radix_sort_key_value_dev
          .unsigned_int .unsigned_int lower_32_bits_uint64 upper_32_bits_uint64 [1, 0] =
        some b ∧
      b.lower_permutation = [1, 0] ∧ b.permutation = [0, 1] ∧ b.keys = [0, 1] ∧
      ¬ PermutationIndexesOriginal [1, 0] b :=
  ⟨{ lower_permutation := [1, 0], permuted_keys := [0, 1], permutation := [0, 1],
     keys := [0, 1] }, by decide, rfl, rfl, rfl, fun h => by
      have := h 0 0 rfl
      exact absurd this (by decide)⟩

/-- C14, amended. The two-pass sorter returns (given a primitive that only reorders its
value buffer), and at its end the index buffer holds the permutation of the second pass: for
every output position `i`, `permutation[i]` is the index in the permuted-keys buffer of the
key stored at `output[i]`. The index of that key in the original array is
`p1[permutation[i]]`, with `p1` the index buffer the first pass left; the buffer does not
hold this composition. -/
theorem permutation_is_second_pass {KeyType : Type}
    (sort_key_value : BitsType → KeyValueSort) (LowerBits UpperBits : BitsType)
    (extract_lower_bits extract_upper_bits : KeyType → Nat) (keys : List KeyType)
    (hlower : PermutesValues (sort_key_value LowerBits))
    (hupper : PermutesValues (sort_key_value UpperBits))
    (hn : keys.length ≤ UINT_RANGE) :
    ∃ b : LargeDevBuffers KeyType,
      stable_radix_sort_key_large_dev sort_key_value LowerBits UpperBits
          extract_lower_bits extract_upper_bits keys = some b ∧
        b.permutation =
          (sort_key_value UpperBits
            (transform b.permuted_keys (fun k => to_uint (extract_upper_bits k)))
            (sequence keys.length)).2 ∧
        b.keys.length = b.permutation.length ∧
        (∀ (i p : Nat), b.permutation[i]? = some p →
          p < b.permuted_keys.length ∧ b.keys[i]? = b.permuted_keys[p]?) ∧
        (∀ (i p : Nat), b.permutation[i]? = some p →
          ∃ q, b.lower_permutation[p]? = some q ∧ q < keys.length ∧
            b.keys[i]? = keys[q]?) := by
  obtain ⟨b, hb, _⟩ := large_dev_perm_of_permutes sort_key_value LowerBits UpperBits
    extract_lower_bits extract_upper_bits keys hlower hupper hn
  exact ⟨b, hb,
    (large_dev_buffers sort_key_value LowerBits UpperBits extract_lower_bits
      extract_upper_bits keys b hb).2.2.1,
    large_dev_permutation_spec sort_key_value LowerBits UpperBits extract_lower_bits
      extract_upper_bits keys b hb⟩

/-- Witness for the amended C14 on the run of the counterexample. -/
theorem permutation_is_second_pass_witness :
    PermutesValues (stable_radix_sort_key_value_dev .unsigned_int) ∧
      stable_radix_sort_key_large_dev stable_radix_sort_key_value_dev
          .unsigned_int .unsigned_int lower_32_bits_uint64 upper_32_bits_uint64 [1, 0] =
        some { lower_permutation := [1, 0], permuted_keys := [0, 1], permutation := [0, 1],
               keys := [0, 1] } ∧
      ∃ b : LargeDevBuffers Nat,
        stable_radix_sort_key_large_dev stable_radix_sort_key_value_dev
            .unsigned_int .unsigned_int lower_32_bits_uint64 upper_32_bits_uint64 [1, 0] =
          some b ∧
        b.permutation =
          (stable_radix_sort_key_value_dev .unsigned_int
            (transform b.permuted_keys (fun k => to_uint (upper_32_bits_uint64 k)))
            (sequence [1, 0].length)).2 ∧
        b.keys.length = b.permutation.length ∧
        (∀ (i p : Nat), b.permutation[i]? = some p →
          p < b.permuted_keys.length ∧ b.keys[i]? = b.permuted_keys[p]?) ∧
        (∀ (i p : Nat), b.permutation[i]? = some p →
          ∃ q, b.lower_permutation[p]? = some q ∧ q < [1, 0].length ∧
            b.keys[i]? = ([1, 0] : List Nat)[q]?) :=
  ⟨stable_radix_sort_key_value_dev_permutes _, by decide,
    permutation_is_second_pass stable_radix_sort_key_value_dev .unsigned_int .unsigned_int
      lower_32_bits_uint64 upper_32_bits_uint64 [1, 0]
      (stable_radix_sort_key_value_dev_permutes _)
      (stable_radix_sort_key_value_dev_permutes _) (by decide)⟩

/-- Under the weakest contract both index buffers are permutations of `0..N-1` and both
gathers return. -/
theorem large_dev_index_buffers {KeyType : Type} (sort_key_value : BitsType → KeyValueSort)
    (LowerBits UpperBits : BitsType) (extract_lower_bits extract_upper_bits : KeyType → Nat)
    (keys : List KeyType)
    (hlower : PermutesValues (sort_key_value LowerBits))
    (hupper : PermutesValues (sort_key_value UpperBits))
    (hn : keys.length ≤ UINT_RANGE) :
    ∃ b : LargeDevBuffers KeyType,
      stable_radix_sort_key_large_dev sort_key_value LowerBits UpperBits
          extract_lower_bits extract_upper_bits keys = some b ∧
        b.lower_permutation.Perm (List.range keys.length) ∧
        b.permuted_keys.length = keys.length ∧
        b.permutation.Perm (List.range keys.length) ∧
        gather b.lower_permutation keys = some b.permuted_keys ∧
        gather b.permutation b.permuted_keys = some b.keys := by
  obtain ⟨b, hb, _⟩ := large_dev_perm_of_permutes sort_key_value LowerBits UpperBits
    extract_lower_bits extract_upper_bits keys hlower hupper hn
  obtain ⟨hp1, hg1, hp2, hg2⟩ := large_dev_buffers sort_key_value LowerBits UpperBits
    extract_lower_bits extract_upper_bits keys b hb
  have hperm1 : b.lower_permutation.Perm (List.range keys.length) := by
    rw [hp1, ← sequence_eq_range hn]
    exact hlower _ _ (by simp [transform, length_sequence])
  have hlen : b.permuted_keys.length = keys.length := by
    rw [gather_length _ _ _ hg1, hperm1.length_eq, List.length_range]
  have hperm2 : b.permutation.Perm (List.range keys.length) := by
    rw [hp2, ← sequence_eq_range hn]
    exact hupper _ _ (by simp [transform, length_sequence, hlen])
  exact ⟨b, hb, hperm1, hlen, hperm2, hg1, hg2⟩

/-- C17. In the two-pass sorter, for every key array of length `N`, the index buffer is a
permutation of `0..N-1` after each key-value sort pass, given that the primitive only
reorders its value buffer; so every index the two gathers read is below `N`, the length of
the buffer they read from, and neither gather reads out of bounds: both return. -/
theorem gathers_in_bounds {KeyType : Type} (sort_key_value : BitsType → KeyValueSort)
    (LowerBits UpperBits : BitsType) (extract_lower_bits extract_upper_bits : KeyType → Nat)
    (keys : List KeyType)
    (hlower : PermutesValues (sort_key_value LowerBits))
    (hupper : PermutesValues (sort_key_value UpperBits))
    (hn : keys.length ≤ UINT_RANGE) :
    ∃ b : LargeDevBuffers KeyType,
      stable_radix_sort_key_large_dev sort_key_value LowerBits UpperBits
          extract_lower_bits extract_upper_bits keys = some b ∧
        b.lower_permutation.Perm (List.range keys.length) ∧
        b.permutation.Perm (List.range keys.length) ∧
        (∀ i ∈ b.lower_permutation, i < keys.length) ∧
        b.permuted_keys.length = keys.length ∧
        (∀ i ∈ b.permutation, i < b.permuted_keys.length) ∧
        (gather b.lower_permutation keys).isSome ∧
        (gather b.permutation b.permuted_keys).isSome := by
  obtain ⟨b, hb, hperm1, hlen, hperm2, hg1, hg2⟩ := large_dev_index_buffers sort_key_value
    LowerBits UpperBits extract_lower_bits extract_upper_bits keys hlower hupper hn
  refine ⟨b, hb, hperm1, hperm2, fun i hi => List.mem_range.mp (hperm1.subset hi), hlen,
    fun i hi => ?_, by rw [hg1]; rfl, by rw [hg2]; rfl⟩
  rw [hlen]
  exact List.mem_range.mp (hperm2.subset hi)

/-- Witness for C17 with a primitive that is no sort: it rotates the value buffer. An index
outside the input, by contrast, makes a gather fail. -/
theorem gathers_in_bounds_witness :
    PermutesValues (fun keys values => (keys, values.rotate 1)) ∧
      gather [0, 3] [10, 20, 30] = none ∧
      ∃ b : LargeDevBuffers Nat,
        stable_radix_sort_key_large_dev (fun _ keys values => (keys, values.rotate 1))
            .unsigned_int .unsigned_int lower_32_bits_uint64 upper_32_bits_uint64
            [7, 2 ^ 40, 5] = some b ∧
          b.lower_permutation.Perm (List.range [7, 2 ^ 40, 5].length) ∧
          b.permutation.Perm (List.range [7, 2 ^ 40, 5].length) ∧
          (∀ i ∈ b.lower_permutation, i < [7, 2 ^ 40, 5].length) ∧
          b.permuted_keys.length = [7, 2 ^ 40, 5].length ∧
          (∀ i ∈ b.permutation, i < b.permuted_keys.length) ∧
          (gather b.lower_permutation [7, 2 ^ 40, 5]).isSome ∧
          (gather b.permutation b.permuted_keys).isSome :=
  ⟨fun _ values _ => List.rotate_perm values 1, by decide,
    gathers_in_bounds (fun _ keys values => (keys, values.rotate 1))
      .unsigned_int .unsigned_int lower_32_bits_uint64 upper_32_bits_uint64 [7, 2 ^ 40, 5]
      (fun _ values _ => List.rotate_perm values 1)
      (fun _ values _ => List.rotate_perm values 1) (by decide)⟩

/-! ## 64-bit floats: the order of the output -/

/-- The float64 path returns a reordering of the patterns whose encodings ascend. -/
theorem float64_output (sort_key_value : BitsType → KeyValueSort) (keys : List Nat)
    (hsort : StableKeyValueSort .unsigned_int (sort_key_value .unsigned_int))
    (hkeys : ∀ k ∈ keys, k < 2 ^ 64) (hn : keys.length ≤ UINT_RANGE) :
    ∃ output, stable_radix_sort_key_dev_float64 sort_key_value keys = some output ∧
      output.Perm keys ∧
      output.Pairwise (fun a b => encode_float64 a ≤ encode_float64 b) := by
  obtain ⟨b, hb, hperm, hst⟩ := large_dev_keys sort_key_value .unsigned_int .unsigned_int
    lower_32_bits_float64 upper_32_bits_float64 keys hsort hsort hn
  refine ⟨b.keys, ?_, hperm, ?_⟩
  · unfold stable_radix_sort_key_dev_float64
    rw [hb]
    rfl
  · refine hst.1.imp_of_mem ?_
    intro x y hx hy hxy
    exact (full_key_float64_le_iff (hkeys x (hperm.subset hx)) (hkeys y (hperm.subset hy))).mp
      hxy

/-- C15. For every array of 64-bit float patterns the float64 path, whose extractors return
the lower and upper halves of `enc64(k)` (sign bit flipped when it is 0, all bits inverted
when it is 1), returns the original, undecoded patterns ordered so that
`enc64(output[i]) ≤ enc64(output[j])` as unsigned 64-bit integers for all `i < j`; in
particular every pattern with the sign bit set precedes every pattern with it clear. -/
theorem float64_sort_by_encoding (sort_key_value : BitsType → KeyValueSort)
    (keys : List Nat)
    (hsort : StableKeyValueSort .unsigned_int (sort_key_value .unsigned_int))
    (hkeys : ∀ k ∈ keys, k < 2 ^ 64) (hn : keys.length ≤ UINT_RANGE) :
    (∀ k, lower_32_bits_float64 k = encode_float64 k % 2 ^ 32 ∧
        upper_32_bits_float64 k = encode_float64 k / 2 ^ 32) ∧
      (∀ k, k < 2 ^ 64 → encode_float64 k < 2 ^ 64 ∧
        encode_float64 k = if k < 2 ^ 63 then k ^^^ 2 ^ 63 else k ^^^ (2 ^ 64 - 1)) ∧
      ∃ output, stable_radix_sort_key_dev_float64 sort_key_value keys = some output ∧
        output.Perm keys ∧
        (∀ (i j x y : Nat), i < j → output[i]? = some x → output[j]? = some y →
          encode_float64 x ≤ encode_float64 y) ∧
        (∀ (i j x y : Nat), output[i]? = some x → output[j]? = some y →
          2 ^ 63 ≤ x → y < 2 ^ 63 → i < j) := by
  refine ⟨fun _ => ⟨rfl, rfl⟩, fun k hk => ⟨encode_float64_lt hk, rfl⟩, ?_⟩
  obtain ⟨output, hout, hperm, hpw⟩ := float64_output sort_key_value keys hsort hkeys hn
  refine ⟨output, hout, hperm, fun i j x y hij hx hy => pairwise_getElem? hpw i j x y hij hx hy,
    ?_⟩
  intro i j x y hx hy hxs hys
  have hxk : x < 2 ^ 64 := hkeys x (hperm.subset (List.getElem?_mem hx))
  have hyk : y < 2 ^ 64 := hkeys y (hperm.subset (List.getElem?_mem hy))
  have hex : encode_float64 x < 2 ^ 63 := by
    rw [encode_float64_eq hxk, if_neg (by omega)]
    omega
  have hey : 2 ^ 63 ≤ encode_float64 y := by
    rw [encode_float64_eq hyk, if_pos hys]
    omega
  by_contra hij
  rcases Nat.lt_or_eq_of_le (not_lt.mp hij) with hlt | heq
  · have := pairwise_getElem? hpw j i y x hlt hy hx
    omega
  · rw [heq, hx] at hy
    have := Option.some.inj hy
    omega

/-- Witness for C15 with the modelled primitive, on the patterns of `1.0`, `-1.0`, `+0.0`,
`-0.0` and `-2.0`: they come back as `-2.0`, `-1.0`, `-0.0`, `+0.0`, `1.0`. -/
theorem float64_sort_by_encoding_witness :
    StableKeyValueSort .unsigned_int (stable_radix_sort_key_value_dev .unsigned_int) ∧
      stable_radix_sort_key_dev_float64 stable_radix_sort_key_value_dev
          [0x3FF0000000000000, 0xBFF0000000000000, 0, 0x8000000000000000,
            0xC000000000000000] =
        some [0xC000000000000000, 0xBFF0000000000000, 0x8000000000000000, 0,
          0x3FF0000000000000] ∧
      ((∀ k, lower_32_bits_float64 k = encode_float64 k % 2 ^ 32 ∧
          upper_32_bits_float64 k = encode_float64 k / 2 ^ 32) ∧
        (∀ k, k < 2 ^ 64 → encode_float64 k < 2 ^ 64 ∧
          encode_float64 k = if k < 2 ^ 63 then k ^^^ 2 ^ 63 else k ^^^ (2 ^ 64 - 1)) ∧
        ∃ output, stable_radix_sort_key_dev_float64 stable_radix_sort_key_value_dev
            [0x3FF0000000000000, 0xBFF0000000000000, 0, 0x8000000000000000,
              0xC000000000000000] = some output ∧
          output.Perm [0x3FF0000000000000, 0xBFF0000000000000, 0, 0x8000000000000000,
            0xC000000000000000] ∧
          (∀ (i j x y : Nat), i < j → output[i]? = some x → output[j]? = some y →
            encode_float64 x ≤ encode_float64 y) ∧
          (∀ (i j x y : Nat), output[i]? = some x → output[j]? = some y →
            2 ^ 63 ≤ x → y < 2 ^ 63 → i < j)) :=
  ⟨stable_radix_sort_key_value_dev_stable _, by decide,
    float64_sort_by_encoding stable_radix_sort_key_value_dev
      [0x3FF0000000000000, 0xBFF0000000000000, 0, 0x8000000000000000, 0xC000000000000000]
      (stable_radix_sort_key_value_dev_stable _) (by decide) (by decide)⟩

/-! ## The 32-bit float encoding -/

theorem encode_uint_float_eq {u : Nat} (h : u < 2 ^ 32) :
    encode_uint_float u = if u < 2 ^ 31 then u + 2 ^ 31 else 2 ^ 32 - 1 - u := by
  unfold encode_uint_float
  by_cases hu : u < 2 ^ 31
  · rw [if_pos (by omega), if_pos hu, xor_sign_of_lt hu]
  · rw [if_neg (by omega), if_neg hu, xor_ones h]

theorem decode_uint_float_eq {u : Nat} (h : u < 2 ^ 32) :
    decode_uint_float u = if u < 2 ^ 31 then 2 ^ 32 - 1 - u else u - 2 ^ 31 := by
  unfold decode_uint_float
  by_cases hu : u < 2 ^ 31
  · rw [if_pos (by omega), if_pos hu, xor_ones h]
  · rw [if_neg (by omega), if_neg hu, xor_sign_of_ge (by omega) h]

theorem encode_uint_float_lt {u : Nat} (h : u < 2 ^ 32) : encode_uint_float u < 2 ^ 32 := by
  rw [encode_uint_float_eq h]
  split <;> omega

theorem decode_uint_float_lt {u : Nat} (h : u < 2 ^ 32) : decode_uint_float u < 2 ^ 32 := by
  rw [decode_uint_float_eq h]
  split <;> omega

theorem decode_encode_float {u : Nat} (h : u < 2 ^ 32) :
    decode_uint_float (encode_uint_float u) = u := by
  rw [decode_uint_float_eq (encode_uint_float_lt h), encode_uint_float_eq h]
  by_cases hu : u < 2 ^ 31
  · rw [if_pos hu, if_neg (by omega)]
    omega
  · rw [if_neg hu, if_pos (by omega)]
    omega

theorem encode_decode_float {u : Nat} (h : u < 2 ^ 32) :
    encode_uint_float (decode_uint_float u) = u := by
  rw [encode_uint_float_eq (decode_uint_float_lt h), decode_uint_float_eq h]
  by_cases hu : u < 2 ^ 31
  · rw [if_pos hu, if_neg (by omega)]
    omega
  · rw [if_neg hu, if_pos (by omega)]
    omega

/-- The encoding is strictly increasing in the sign-magnitude value of the pattern. -/
theorem encode_uint_float_lt_of_order_key_lt {a b : Nat} (ha : a < 2 ^ 32) (hb : b < 2 ^ 32)
    (h : float32_order_key a < float32_order_key b) :
    encode_uint_float a < encode_uint_float b := by
  rw [encode_uint_float_eq ha, encode_uint_float_eq hb]
  unfold float32_order_key at h
  split at h <;> split at h <;> rename_i h1 h2 <;> simp only [h1, h2, if_true, if_false] <;>
    omega

/-- C16. The 32-bit float encoding on bit patterns, which flips the sign bit when it is 0 and
inverts all 32 bits when it is 1, is a bijection on the 32-bit patterns, with
`decode_uint_float` as its inverse, and preserves the sign-magnitude order, which on
patterns other than NaN is the order of the float values: if the value of `a` is below that
of `b` then `encode(a) < encode(b)` as unsigned integers. So every negative value is placed
before every positive value, and more-negative values come first. -/
theorem encode_uint_float_order :
    (∀ u, u < 2 ^ 32 →
        encode_uint_float u =
          (if u < 2 ^ 31 then u ^^^ 0x80000000 else u ^^^ 0xFFFFFFFF) ∧
        encode_uint_float u < 2 ^ 32 ∧ decode_uint_float u < 2 ^ 32 ∧
        decode_uint_float (encode_uint_float u) = u ∧
        encode_uint_float (decode_uint_float u) = u) ∧
      (∀ a b, a < 2 ^ 32 → b < 2 ^ 32 → encode_uint_float a = encode_uint_float b → a = b) ∧
      (∀ v, v < 2 ^ 32 → ∃ u, u < 2 ^ 32 ∧ encode_uint_float u = v) ∧
      (∀ a b, a < 2 ^ 32 → b < 2 ^ 32 → float32_order_key a < float32_order_key b →
        encode_uint_float a < encode_uint_float b) ∧
      (∀ a b, 2 ^ 31 ≤ a → a < 2 ^ 32 → b < 2 ^ 31 →
        encode_uint_float a < encode_uint_float b) ∧
      (∀ a b, 2 ^ 31 ≤ b → b < a → a < 2 ^ 32 →
        encode_uint_float a < encode_uint_float b) := by
  refine ⟨fun u hu => ⟨rfl, encode_uint_float_lt hu, decode_uint_float_lt hu,
    decode_encode_float hu, encode_decode_float hu⟩, ?_, ?_,
    fun a b ha hb h => encode_uint_float_lt_of_order_key_lt ha hb h, ?_, ?_⟩
  · intro a b ha hb h
    rw [← decode_encode_float ha, ← decode_encode_float hb, h]
  · intro v hv
    exact ⟨decode_uint_float v, decode_uint_float_lt hv, encode_decode_float hv⟩
  · intro a b ha1 ha2 hb
    rw [encode_uint_float_eq ha2, encode_uint_float_eq (by omega), if_neg (by omega),
      if_pos hb]
    omega
  · intro a b hb hab ha
    rw [encode_uint_float_eq ha, encode_uint_float_eq (by omega), if_neg (by omega),
      if_neg (by omega)]
    omega

/-- Witness for C16 on the patterns of `-2.0`, `-1.0`, `-0.0`, `+0.0` and `1.0`, and the
32-bit float sorter on the same values. -/
theorem encode_uint_float_order_witness :
    encode_uint_float 0xC0000000 < encode_uint_float 0xBF800000 ∧
      encode_uint_float 0xBF800000 < encode_uint_float 0x80000000 ∧
      encode_uint_float 0x80000000 < encode_uint_float 0 ∧
      encode_uint_float 0 < encode_uint_float 0x3F800000 ∧
      stable_radix_sort_key_dev_float32 [0x3F800000, 0xBF800000, 0, 0x80000000, 0xC0000000] =
        [0xC0000000, 0xBF800000, 0x80000000, 0, 0x3F800000] :=
  ⟨encode_uint_float_order.2.2.2.2.2 0xC0000000 0xBF800000 (by decide) (by decide)
      (by decide),
    encode_uint_float_order.2.2.2.2.2 0xBF800000 0x80000000 (by decide) (by decide)
      (by decide),
    encode_uint_float_order.2.2.2.2.1 0x80000000 0 (by decide) (by decide) (by decide),
    encode_uint_float_order.2.2.2.1 0 0x3F800000 (by decide) (by decide) (by decide),
    by decide⟩

end Thrust
